import Mathlib

/-!
Verification of the polygon rasterization pipeline of `gpkg-to-png`.

The Rust sources are shallowly embedded as follows.

* `f64` values flowing through the geometry pipeline (coordinates, slopes,
  bounding boxes) are modelled as exact rational numbers, carried by the
  executable type `Frac` below.  All `f64` arithmetic performed by the
  pipeline on the inputs exercised here is exact, so the rational model
  agrees with the machine computation there.
* The `f32` arithmetic of `blend_pixel` is modelled exactly: `f32Round`
  implements IEEE-754 binary32 round-to-nearest-even for values in the
  normal range (every intermediate value of `blend_pixel` on byte-sized
  channels is either zero or lies in the normal range, far away from
  overflow and subnormals).
* Machine integer casts (`as u8`, `as u32`, `as i32`) are modelled with
  their Rust semantics: float-to-int casts saturate, `i32 as u32` wraps.
* Fallible operations return `Option` / `Except`; the SQLite, `proj` and
  WKB/GeoJSON text-parsing collaborators are passed in as explicit
  function parameters, exactly at the interface the Rust code consumes.
* The rayon parallel loops write disjoint rows (fill bands) or composite
  an opaque colour (stroke), so they are modelled by sequential folds.
-/

/-- Exact rational scalar: value `n / (d + 1)`.  Storing the denominator
minus one keeps it positive by construction, so every operation below is a
total function and agrees with rational arithmetic unconditionally. -/
structure Frac where
  n : Int
  d : Nat
deriving DecidableEq

/-- Denominator of a `Frac`, always positive. -/
def Frac.den (a : Frac) : Int := (a.d : Int) + 1

/-- Embed an integer. -/
def Frac.ofInt (i : Int) : Frac := ⟨i, 0⟩

/-- Zero. -/
def Frac.zero : Frac := ⟨0, 0⟩

/-- Exact addition. -/
def Frac.add (a b : Frac) : Frac := ⟨a.n * b.den + b.n * a.den, (a.d + 1) * (b.d + 1) - 1⟩

/-- Exact negation. -/
def Frac.neg (a : Frac) : Frac := ⟨-a.n, a.d⟩

/-- Exact subtraction. -/
def Frac.sub (a b : Frac) : Frac := a.add b.neg

/-- Exact multiplication. -/
def Frac.mul (a b : Frac) : Frac := ⟨a.n * b.n, (a.d + 1) * (b.d + 1) - 1⟩

/-- Exact division; division by a zero value yields zero, matching the
junk-free convention `x / 0 = 0` of `ℚ` (the pipeline only divides by
values it has checked to be nonzero). -/
def Frac.div (a b : Frac) : Frac :=
  if b.n = 0 then ⟨0, 0⟩
  else ⟨a.n * b.den * (if b.n < 0 then -1 else 1), (a.d + 1) * b.n.natAbs - 1⟩

/-- Absolute value. -/
def Frac.abs (a : Frac) : Frac := ⟨|a.n|, a.d⟩

/-- Boolean comparison by cross multiplication: value-level `≤`. -/
def Frac.ble (a b : Frac) : Bool := a.n * b.den ≤ b.n * a.den

/-- Boolean comparison by cross multiplication: value-level `<`. -/
def Frac.blt (a b : Frac) : Bool := a.n * b.den < b.n * a.den

/-- Boolean comparison by cross multiplication: value-level equality. -/
def Frac.beq (a b : Frac) : Bool := a.n * b.den = b.n * a.den

/-- Floor to an integer (`Int.ediv` by a positive denominator is floor
division). -/
def Frac.floor (a : Frac) : Int := a.n / a.den

/-- Ceiling to an integer. -/
def Frac.ceil (a : Frac) : Int := -((-a.n) / a.den)

/-- Truncation toward zero, the semantics of Rust `as` float-to-int casts. -/
def Frac.trunc (a : Frac) : Int := if 0 ≤ a.n then a.floor else a.ceil

/-- Rounding half away from zero, the semantics of Rust `f64::round`. -/
def Frac.round (a : Frac) : Int :=
  if 0 ≤ a.n then (2 * a.n + a.den) / (2 * a.den)
  else -((2 * (-a.n) + a.den) / (2 * a.den))

/-- Interpretation into `ℚ`. -/
def Frac.toQ (a : Frac) : ℚ := (a.n : ℚ) / ((a.d : ℚ) + 1)

/-- Rounding half away from zero on `ℚ` (the specification-side image of
`f64::round`). -/
def qround (x : ℚ) : Int := if 0 ≤ x then ⌊x + 1/2⌋ else ⌈x - 1/2⌉

theorem Frac.den_pos (a : Frac) : (0 : Int) < a.den := by
  show (0 : Int) < (a.d : Int) + 1
  positivity

theorem Frac.den_cast (a : Frac) : ((a.d : ℚ) + 1) = ((a.den : Int) : ℚ) := by
  simp [Frac.den]

theorem Frac.denQ_pos (a : Frac) : (0 : ℚ) < (a.d : ℚ) + 1 := by positivity

theorem Frac.toQ_ofInt (i : Int) : (Frac.ofInt i).toQ = (i : ℚ) := by
  simp [Frac.ofInt, Frac.toQ]

theorem Frac.toQ_add (a b : Frac) : (a.add b).toQ = a.toQ + b.toQ := by
  have ha := a.denQ_pos
  have hb := b.denQ_pos
  simp only [Frac.add, Frac.toQ, Frac.den]
  have h1 : (((a.d + 1) * (b.d + 1) - 1 : ℕ) : ℚ) + 1 = ((a.d : ℚ) + 1) * ((b.d : ℚ) + 1) := by
    rw [Nat.cast_sub (Nat.mul_pos (Nat.succ_pos _) (Nat.succ_pos _))]
    push_cast
    ring
  rw [h1]
  push_cast
  field_simp
  try ring

theorem Frac.toQ_neg (a : Frac) : a.neg.toQ = -a.toQ := by
  simp [Frac.neg, Frac.toQ, neg_div]

theorem Frac.toQ_sub (a b : Frac) : (a.sub b).toQ = a.toQ - b.toQ := by
  rw [Frac.sub, Frac.toQ_add, Frac.toQ_neg, sub_eq_add_neg]

theorem Frac.toQ_mul (a b : Frac) : (a.mul b).toQ = a.toQ * b.toQ := by
  have ha := a.denQ_pos
  have hb := b.denQ_pos
  simp only [Frac.mul, Frac.toQ]
  have h1 : (((a.d + 1) * (b.d + 1) - 1 : ℕ) : ℚ) + 1 = ((a.d : ℚ) + 1) * ((b.d : ℚ) + 1) := by
    rw [Nat.cast_sub (Nat.mul_pos (Nat.succ_pos _) (Nat.succ_pos _))]
    push_cast
    ring
  rw [h1]
  push_cast
  field_simp
  try ring

theorem Frac.toQ_eq_zero_iff (a : Frac) : a.toQ = 0 ↔ a.n = 0 := by
  have ha := a.denQ_pos
  simp only [Frac.toQ, div_eq_zero_iff]
  constructor
  · rintro (h | h)
    · exact_mod_cast h
    · exact absurd h (by positivity)
  · intro h; left; exact_mod_cast h

theorem Frac.toQ_div (a b : Frac) : (a.div b).toQ = a.toQ / b.toQ := by
  by_cases hb : b.n = 0
  · simp [Frac.div, hb, Frac.toQ, div_eq_zero_iff]
  · have ha := a.denQ_pos
    have hbd := b.denQ_pos
    have hbn : ((b.n : ℚ)) ≠ 0 := by exact_mod_cast hb
    have hnat : (0 : ℕ) < (a.d + 1) * b.n.natAbs :=
      Nat.mul_pos (Nat.succ_pos _) (Int.natAbs_pos.mpr hb)
    simp only [Frac.div, hb, if_false, Frac.toQ, Frac.den]
    have h1 : (((a.d + 1) * b.n.natAbs - 1 : ℕ) : ℚ) + 1 = ((a.d : ℚ) + 1) * (b.n.natAbs : ℚ) := by
      rw [Nat.cast_sub hnat]
      push_cast
      ring
    rw [h1]
    rcases lt_or_le b.n 0 with hneg | hpos
    · have habs : (b.n.natAbs : ℚ) = -(b.n : ℚ) := by
        rw [Int.cast_natAbs, abs_of_neg hneg]
        push_cast
        ring
      simp only [if_pos hneg, habs]
      push_cast
      field_simp
      try ring
    · have habs : (b.n.natAbs : ℚ) = (b.n : ℚ) := by
        rw [Int.cast_natAbs, abs_of_nonneg hpos]
      have hneg' : ¬ b.n < 0 := not_lt.mpr hpos
      simp only [if_neg hneg', habs]
      push_cast
      field_simp
      try ring

theorem Frac.toQ_abs (a : Frac) : a.abs.toQ = |a.toQ| := by
  have ha := a.denQ_pos
  simp only [Frac.abs, Frac.toQ]
  rw [abs_div, abs_of_pos ha]
  push_cast
  rfl

theorem Frac.ble_iff (a b : Frac) : a.ble b = true ↔ a.toQ ≤ b.toQ := by
  have ha := a.denQ_pos
  have hb := b.denQ_pos
  simp only [Frac.ble, Frac.toQ, decide_eq_true_eq, div_le_div_iff ha hb]
  constructor
  · intro h
    have : ((a.n * b.den : ℤ) : ℚ) ≤ ((b.n * a.den : ℤ) : ℚ) := by exact_mod_cast h
    push_cast [Frac.den] at this
    linarith
  · intro h
    have : ((a.n * b.den : ℤ) : ℚ) ≤ ((b.n * a.den : ℤ) : ℚ) := by
      push_cast [Frac.den]
      linarith
    exact_mod_cast this

theorem Frac.blt_iff (a b : Frac) : a.blt b = true ↔ a.toQ < b.toQ := by
  have ha := a.denQ_pos
  have hb := b.denQ_pos
  simp only [Frac.blt, Frac.toQ, decide_eq_true_eq, div_lt_div_iff ha hb]
  constructor
  · intro h
    have : ((a.n * b.den : ℤ) : ℚ) < ((b.n * a.den : ℤ) : ℚ) := by exact_mod_cast h
    push_cast [Frac.den] at this
    linarith
  · intro h
    have : ((a.n * b.den : ℤ) : ℚ) < ((b.n * a.den : ℤ) : ℚ) := by
      push_cast [Frac.den]
      linarith
    exact_mod_cast this

theorem Frac.beq_iff (a b : Frac) : a.beq b = true ↔ a.toQ = b.toQ := by
  have h1 := Frac.ble_iff a b
  have h2 := Frac.ble_iff b a
  simp only [Frac.ble, decide_eq_true_eq] at h1 h2
  simp only [Frac.beq, decide_eq_true_eq]
  constructor
  · intro h
    exact le_antisymm (h1.mp (le_of_eq h)) (h2.mp (ge_of_eq h))
  · intro h
    exact le_antisymm (h1.mpr (le_of_eq h)) (h2.mpr (ge_of_eq h))

theorem Frac.floor_eq (a : Frac) : a.floor = ⌊a.toQ⌋ := by
  have h : a.toQ = ((a.n : ℚ)) / (((a.d + 1 : ℕ) : ℚ)) := by
    rw [Frac.toQ]
    push_cast
    ring_nf
  rw [h, Rat.floor_intCast_div_natCast, Frac.floor, Frac.den]
  norm_cast

theorem Frac.ceil_eq (a : Frac) : a.ceil = ⌈a.toQ⌉ := by
  have h : a.neg.floor = ⌊a.neg.toQ⌋ := Frac.floor_eq a.neg
  rw [Frac.toQ_neg, Int.floor_neg] at h
  have : a.ceil = -a.neg.floor := by simp [Frac.ceil, Frac.floor, Frac.neg, Frac.den]
  rw [this, h, neg_neg]

theorem Frac.nonneg_iff (a : Frac) : 0 ≤ a.n ↔ 0 ≤ a.toQ := by
  have ha := a.denQ_pos
  rw [Frac.toQ, le_div_iff ha, zero_mul]
  norm_cast

theorem Frac.round_eq (a : Frac) : a.round = qround a.toQ := by
  have ha := a.denQ_pos
  have key : ∀ b : Frac, 0 ≤ b.n → (2 * b.n + b.den) / (2 * b.den) = ⌊b.toQ + 1/2⌋ := by
    intro b hb
    have hbq := b.denQ_pos
    have heq : b.toQ + 1/2 = ((2 * b.n + b.den : ℤ) : ℚ) / (((2 * (b.d + 1) : ℕ)) : ℚ) := by
      simp only [Frac.toQ, Frac.den]
      push_cast
      field_simp
      try ring
    rw [heq, Rat.floor_intCast_div_natCast]
    have hden2 : ((2 * (b.d + 1) : ℕ) : ℤ) = 2 * b.den := by
      simp only [Frac.den]
      push_cast
      ring
    rw [hden2]
  by_cases h : 0 ≤ a.n
  · rw [Frac.round, if_pos h, qround, if_pos ((Frac.nonneg_iff a).mp h), key a h]
  · have hneg : a.toQ < 0 := by
      by_contra hc
      exact h ((Frac.nonneg_iff a).mpr (not_lt.mp hc))
    rw [Frac.round, if_neg h, qround, if_neg (not_le.mpr hneg)]
    have hn : 0 ≤ a.neg.n := by
      simp only [Frac.neg]
      omega
    have h2 := key a.neg hn
    have hq : a.neg.toQ = -a.toQ := Frac.toQ_neg a
    rw [hq] at h2
    have hceil : ⌈a.toQ - 1/2⌉ = -⌊-a.toQ + 1/2⌋ := by
      rw [show a.toQ - 1/2 = -(-a.toQ + 1/2) by ring, Int.ceil_neg]
    rw [hceil, ← h2]
    simp [Frac.neg, Frac.den]

/-- Rust `as u32` cast of an integral `f64` value: truncation with
saturation into `[0, u32::MAX]`. -/
def castU32ofInt (i : Int) : Nat := (max 0 (min i 4294967295)).toNat

/-- Rust `as i32` cast of an `f64` value: truncation toward zero with
saturation into the `i32` range. -/
def Frac.toI32 (x : Frac) : Int := max (-2147483648) (min x.trunc 2147483647)

/-- Rust `as i32` cast applied to an already-rounded `f64` value:
saturation into the `i32` range. -/
def i32clamp (i : Int) : Int := max (-2147483648) (min i 2147483647)

/-- Rust `i32 as usize` cast: two's-complement reinterpretation, so a
negative difference becomes a huge index (64-bit `usize`). -/
def usizeOfI32 (i : Int) : Nat := (i % 18446744073709551616).toNat

/-- Rust `f64::min`. -/
def Frac.fmin (a b : Frac) : Frac := if a.ble b then a else b

/-- RGBA8 pixel, the element type of the image buffer. -/
structure Pixel where
  r : Nat
  g : Nat
  b : Nat
  a : Nat
deriving DecidableEq

/-- The image buffer, addressed as `img x y` like `RgbaImage::get_pixel`. -/
abbrev Image := Nat → Nat → Pixel

/-- Fresh transparent buffer, `ImageBuffer::from_pixel(w, h, Rgba([0,0,0,0]))`. -/
def transparentImage : Image := fun _ _ => ⟨0, 0, 0, 0⟩

/-- Bounding box in WGS84 coordinates, from `src/math.rs`. -/
structure Bbox where
  min_lon : Frac
  min_lat : Frac
  max_lon : Frac
  max_lat : Frac
deriving DecidableEq

/-- Width of the bbox in degrees (`Bbox::width`). -/
def Bbox.width (b : Bbox) : Frac := b.max_lon.sub b.min_lon

/-- Height of the bbox in degrees (`Bbox::height`). -/
def Bbox.height (b : Bbox) : Frac := b.max_lat.sub b.min_lat

/-- Image dimensions from bbox and resolution (`calculate_dimensions` in
`src/math.rs`): ceiling division, then `as u32`. -/
def calculate_dimensions (bbox : Bbox) (resolution : Frac) : Nat × Nat :=
  (castU32ofInt (bbox.width.div resolution).ceil,
   castU32ofInt (bbox.height.div resolution).ceil)

/-- World-to-screen transform from `src/math.rs`, with the Y flip. -/
def world_to_screen (lon lat : Frac) (bbox : Bbox) (resolution : Frac) (height : Nat) :
    Frac × Frac :=
  ((lon.sub bbox.min_lon).div resolution,
   (Frac.ofInt height).sub ((lat.sub bbox.min_lat).div resolution))

/-- Error type from `src/error.rs`.  Numeric payloads are carried as the
values the code stores; the `EmptyGeojson` and `GeojsonParseError`
variants are referenced by `src/geojson.rs` (their declaration is not in
the `src/error.rs` listing, but the call sites fix their shape). -/
inductive GpkgError where
  | FileNotFound (path : String)
  | NoPolygonLayers
  | LayerNotFound (layer available : String)
  | InvalidBbox (detail : String)
  | InvalidColor (detail : String)
  | InvalidResolution (value : Frac)
  | InvalidScale (value : Frac)
  | MissingResolutionOrScale
  | MutuallyExclusiveOptions (a b : String)
  | ImageTooLarge (width height max : Nat)
  | InvalidFormatOption (detail : String)
  | EmptyGeojson
  | GeojsonParseError (detail : String)
deriving DecidableEq

/-- Splitter for `str::split(',')`, on text modelled as a character list
(Lean `String` primitives are kernel-opaque): empty input yields one empty
part, and consecutive commas yield empty parts, as in Rust. -/
def splitCommaAux : List Char → List Char → List (List Char)
  | [], acc => [acc.reverse]
  | c :: rest, acc =>
    if c = ',' then acc.reverse :: splitCommaAux rest []
    else splitCommaAux rest (c :: acc)

/-- Rust `str::split(',')` as a list of parts. -/
def splitComma (s : List Char) : List (List Char) := splitCommaAux s []

/-- ASCII whitespace test for the `trim` model. -/
def isWs (c : Char) : Bool := c = ' ' || c = '\t' || c = '\n' || c = '\r'

/-- Rust `str::trim` (restricted to ASCII whitespace, which covers every
input the claims exercise). -/
def trimChars (s : List Char) : List Char :=
  ((s.dropWhile isWs).reverse.dropWhile isWs).reverse

/-- An `f64` value as `str::parse::<f64>` can produce it: finite (exact
rational), infinite (`"inf"`, `"1e999"`, …) or NaN (`"nan"`).  The render
path's `Bbox` uses the exact-rational model of finite values only; the
parser-level model keeps the full value space, which is what the
validation comparisons in `parse_bbox` see. -/
inductive F64 where
  | num (x : Frac)
  | posInf
  | negInf
  | nan
deriving DecidableEq

/-- IEEE `a >= b` on `f64`: false whenever either side is NaN. -/
def F64.bge (a b : F64) : Bool :=
  match a, b with
  | .nan, _ => false
  | _, .nan => false
  | .posInf, _ => true
  | _, .posInf => false
  | _, .negInf => true
  | .negInf, _ => false
  | .num x, .num y => y.ble x

/-- IEEE strict `a < b` on `f64`: false whenever either side is NaN. -/
def F64.blt (a b : F64) : Bool :=
  match a, b with
  | .nan, _ => false
  | _, .nan => false
  | .posInf, _ => false
  | _, .posInf => true
  | .negInf, .negInf => false
  | .negInf, _ => true
  | _, .negInf => false
  | .num x, .num y => x.blt y

/-- NaN test. -/
def F64.isNan : F64 → Bool
  | .nan => true
  | _ => false

/-- `math::Bbox` as `parse_bbox` constructs it, over the full `f64` value
space (the validation lets NaN coordinates through, so the fields are not
necessarily finite). -/
structure BboxF where
  min_lon : F64
  min_lat : F64
  max_lon : F64
  max_lat : F64
deriving DecidableEq

/-- Bbox parser from `src/cli.rs`.  The text-to-`f64` conversion
(`str::parse::<f64>`) is external; `parse_bbox` is modelled relative to an
arbitrary numeric parser `pf` applied to each trimmed component, with
codomain the full `f64` value space `F64` (so `pf` can return NaN or
infinities, as `str::parse::<f64>` does on `"nan"`, `"inf"`, …).  The
validation checks are the code's `min >= max` comparisons in IEEE
semantics.  The `format!` payload texts are abbreviated to fixed strings;
no claim depends on the message contents. -/
def parse_bbox (pf : List Char → Option F64) (s : List Char) : Except GpkgError BboxF :=
  let parts := splitComma s
  if parts.length ≠ 4 then
    Except.error (GpkgError.InvalidBbox "expected 4 comma-separated values")
  else
    match parts.mapM (fun p => pf (trimChars p)) with
    | none => Except.error (GpkgError.InvalidBbox "invalid number format")
    | some values =>
      let min_lon := values.getD 0 F64.nan
      let min_lat := values.getD 1 F64.nan
      let max_lon := values.getD 2 F64.nan
      let max_lat := values.getD 3 F64.nan
      if min_lon.bge max_lon then
        Except.error (GpkgError.InvalidBbox "min_lon must be less than max_lon")
      else if min_lat.bge max_lat then
        Except.error (GpkgError.InvalidBbox "min_lat must be less than max_lat")
      else
        Except.ok ⟨min_lon, min_lat, max_lon, max_lat⟩

/-- Scanline edge record from `src/render/edge.rs`. -/
structure Edge where
  y_max : Int
  x_current : Frac
  inv_slope : Frac
deriving DecidableEq

/-- The horizontality threshold `1e-9` of `Edge::new`, taken as the exact
rational (the claims compare `|Δy|` against the same constant, and no
input exercised here lands inside the one-ulp gap between `10⁻⁹` and its
`f64` representation). -/
def epsHoriz : Frac := ⟨1, 999999999⟩

/-- Edge constructor from `src/render/edge.rs` (`Edge::new`): horizontal
segments yield `none`; otherwise the segment is oriented upward in screen
space and `y_max`, `x_current`, `inv_slope` are derived as in the code. -/
def Edge.new (p1 p2 : Frac × Frac) : Option Edge :=
  let y1 := p1.2
  let y2 := p2.2
  if (y1.sub y2).abs.blt epsHoriz then none
  else
    let ps := if y1.blt y2 then (p1, p2) else (p2, p1)
    let p_start := ps.1
    let p_end := ps.2
    let inv_slope := (p_end.1.sub p_start.1).div (p_end.2.sub p_start.2)
    some ⟨i32clamp p_end.2.round, p_start.1, inv_slope⟩

/-- Global Edge Table from `src/render/edge.rs`. -/
structure ScanlineTable where
  y_min : Int
  entries : List (List Edge)

/-- Constructor `ScanlineTable::new`. -/
def ScanlineTable.new (y_min : Int) (height : Nat) : ScanlineTable :=
  ⟨y_min, List.replicate height []⟩

/-- Method `ScanlineTable::add_edge`: push onto `entries[y_start - y_min]`
when the (usize-cast) index is in bounds, silently drop otherwise. -/
def ScanlineTable.add_edge (st : ScanlineTable) (y_start : Int) (e : Edge) : ScanlineTable :=
  let idx := usizeOfI32 (y_start - st.y_min)
  if idx < st.entries.length then
    ⟨st.y_min, st.entries.modify (fun l => l ++ [e]) idx⟩
  else st

/-- Body of the `for i in 0..coords.len()` loop of
`ScanlineTable::extract_from_ring`: segment `i` to `(i+1) mod len`, an edge
when `Edge::new` produces one, inserted at `round(min(y1, y2))` (the `as
i32` cast applies the i32 saturation to the rounded value). -/
def ringEdgeStep (coords : List (Frac × Frac)) (acc : ScanlineTable) (i : Nat) :
    ScanlineTable :=
  let p1 := coords.getD i (Frac.zero, Frac.zero)
  let p2 := coords.getD ((i + 1) % coords.length) (Frac.zero, Frac.zero)
  match Edge.new p1 p2 with
  | some e => acc.add_edge (i32clamp (p1.2.fmin p2.2).round) e
  | none => acc

/-- Method `ScanlineTable::extract_from_ring`: project every vertex, then
walk consecutive pairs including the wrap-around closing segment. -/
def ScanlineTable.extract_from_ring (st : ScanlineTable) (ring : List (Frac × Frac))
    (bbox : Bbox) (resolution : Frac) (img_height : Nat) : ScanlineTable :=
  if ring.length < 3 then st
  else
    let coords := ring.map (fun c => world_to_screen c.1 c.2 bbox resolution img_height)
    (List.range coords.length).foldl (ringEdgeStep coords) st

/-- Polygon over exact coordinates: one exterior ring and interior holes,
the shape of `geo::Polygon<f64>`. -/
structure PolygonG where
  exterior : List (Frac × Frac)
  interiors : List (List (Frac × Frac))

/-- MultiPolygon, the shape of `geo::MultiPolygon<f64>`. -/
abbrev MultiPolygonG := List PolygonG

/-- Method `ScanlineTable::extract_from_polygon`: exterior first, then
every interior ring. -/
def ScanlineTable.extract_from_polygon (st : ScanlineTable) (p : PolygonG) (bbox : Bbox)
    (resolution : Frac) (img_height : Nat) : ScanlineTable :=
  p.interiors.foldl (fun acc r => acc.extract_from_ring r bbox resolution img_height)
    (st.extract_from_ring p.exterior bbox resolution img_height)

/-- Bit length of a natural number, fuel-based so the kernel can reduce it
(128 bits of fuel covers every value occurring here). -/
def natBitsAux : Nat → Nat → Nat
  | 0, _ => 0
  | fuel + 1, m => if m = 0 then 0 else natBitsAux fuel (m / 2) + 1

/-- Bit length: `natBits m = ⌊log2 m⌋ + 1` for `m ≥ 1`, and `0` for `0`. -/
def natBits (m : Nat) : Nat := natBitsAux 128 m

/-- IEEE-754 binary32 round-to-nearest-even of an exact rational value,
for values in the normal range (exponent range and subnormals are not
modelled: every nonzero value reached by `blend_pixel` on byte-sized
inputs has magnitude between `2⁻¹⁶` and `2¹⁶`).  The significand is cut
to 24 bits, ties go to the even significand. -/
def f32Round (x : Frac) : Frac :=
  if x.n = 0 then ⟨0, 0⟩
  else
    let p := x.n.natAbs
    let q := x.d + 1
    let e0 : Int := (natBits p : Int) - (natBits q : Int)
    let ge : Bool :=
      if 0 ≤ e0 then decide (q * 2 ^ e0.toNat ≤ p) else decide (q ≤ p * 2 ^ (-e0).toNat)
    let e : Int := if ge then e0 else e0 - 1
    let shift : Int := 23 - e
    let ab : Nat × Nat :=
      if 0 ≤ shift then (p * 2 ^ shift.toNat, q) else (p, q * 2 ^ (-shift).toNat)
    let m0 := ab.1 / ab.2
    let r := ab.1 % ab.2
    let m1 :=
      if 2 * r < ab.2 then m0
      else if ab.2 < 2 * r then m0 + 1
      else if m0 % 2 = 0 then m0 else m0 + 1
    let sgn : Int := if x.n < 0 then -1 else 1
    if 0 ≤ shift then ⟨sgn * m1, 2 ^ shift.toNat - 1⟩
    else ⟨sgn * (m1 * 2 ^ (-shift).toNat), 0⟩

/-- Rust `f32 as u8` cast: truncation toward zero, saturating into
`[0, 255]`. -/
def u8cast (x : Frac) : Nat := if x.n < 0 then 0 else min 255 x.trunc.toNat

/-- One colour channel of `blend_pixel`: the closure `blend` in
`src/render.rs`, with every `f32` operation individually rounded. -/
def blendChannel (src_a dst_a out_a : Frac) (src dst : Nat) : Nat :=
  let t1 := f32Round ((Frac.ofInt 1).sub src_a)
  let u1 := f32Round ((Frac.ofInt src).mul src_a)
  let u2 := f32Round ((Frac.ofInt dst).mul dst_a)
  let u3 := f32Round (u2.mul t1)
  let u4 := f32Round (u1.add u3)
  u8cast (f32Round (u4.div out_a))

/-- The expression `v as f32 / 255.0` of `blend_pixel`: a byte channel
normalised to `[0, 1]` in `f32`. -/
def alphaF (a : Nat) : Frac := f32Round ((Frac.ofInt a).div (Frac.ofInt 255))

/-- The expression `src_a + dst_a * (1.0 - src_a)` of `blend_pixel`, with
every `f32` operation individually rounded. -/
def outAlpha (src_a dst_a : Frac) : Frac :=
  let t1 := f32Round ((Frac.ofInt 1).sub src_a)
  let t2 := f32Round (dst_a.mul t1)
  f32Round (src_a.add t2)

/-- Porter-Duff source-over compositor from `src/render.rs`
(`blend_pixel`), modelled with exactly-rounded `f32` arithmetic.  `u8 → f32`
conversions are exact and therefore not rounded. -/
def blend_pixel (color dst : Pixel) : Pixel :=
  let src_a := alphaF color.a
  let dst_a := alphaF dst.a
  let out_a := outAlpha src_a dst_a
  if out_a.beq Frac.zero then dst
  else
    ⟨blendChannel src_a dst_a out_a color.r dst.r,
     blendChannel src_a dst_a out_a color.g dst.g,
     blendChannel src_a dst_a out_a color.b dst.b,
     u8cast (f32Round (out_a.mul (Frac.ofInt 255)))⟩

/-- Render configuration from `src/render.rs`. -/
structure RenderConfig where
  bbox : Bbox
  resolution : Frac
  fill : Pixel
  stroke : Nat × Nat × Nat
  stroke_width : Nat

/-- Dimension cap from `src/render.rs`. -/
def MAX_DIMENSION : Nat := 20000

/-- Renderer state (the image buffer itself is threaded explicitly). -/
structure Renderer where
  config : RenderConfig
  width : Nat
  height : Nat

/-- Constructor `Renderer::new`: computes dimensions and rejects images
larger than `MAX_DIMENSION` on either axis. -/
def Renderer.new (config : RenderConfig) : Except GpkgError Renderer :=
  let wh := calculate_dimensions config.bbox config.resolution
  if MAX_DIMENSION < wh.1 ∨ MAX_DIMENSION < wh.2 then
    Except.error (GpkgError.ImageTooLarge wh.1 wh.2 MAX_DIMENSION)
  else
    Except.ok ⟨config, wh.1, wh.2⟩

/-- Method `Renderer::dimensions`. -/
def Renderer.dimensions (r : Renderer) : Nat × Nat := (r.width, r.height)

/-- Functional pixel write at `(x, y)`. -/
def writePx (img : Image) (x y : Nat) (p : Pixel) : Image :=
  fun x' y' => if x' = x ∧ y' = y then p else img x' y'

/-- Advance every active edge by its inverse slope (step 4 of the scanline
loop: `edge.x_current += edge.inv_slope`). -/
def advanceAET (aet : List Edge) : List Edge :=
  aet.map (fun e => ⟨e.y_max, e.x_current.add e.inv_slope, e.inv_slope⟩)

/-- Comparator of the AET sort: value-level `x_current ≤ x_current`. -/
def edgeLe (a b : Edge) : Prop := a.x_current.ble b.x_current = true

instance edgeLe.decRel : DecidableRel edgeLe := fun a b => by
  unfold edgeLe
  infer_instance

instance edgeLe.total : IsTotal Edge edgeLe := by
  constructor
  intro a b
  by_cases h : a.x_current.toQ ≤ b.x_current.toQ
  · exact Or.inl ((Frac.ble_iff _ _).mpr h)
  · exact Or.inr ((Frac.ble_iff _ _).mpr (le_of_not_le h))

instance edgeLe.trans : IsTrans Edge edgeLe := by
  constructor
  intro a b c hab hbc
  exact (Frac.ble_iff _ _).mpr
    (le_trans ((Frac.ble_iff _ _).mp hab) ((Frac.ble_iff _ _).mp hbc))

/-- Stable sort of the AET by `x_current` (`Vec::sort_by` is a stable sort
and stable sorting by a fixed comparator is a unique specification, so the
structural insertion sort computes the same list as the Rust sort). -/
def sortAET (aet : List Edge) : List Edge :=
  aet.insertionSort edgeLe

/-- Rust `i32 as u32` cast: two's-complement wrap. -/
def castU32wrap (i : Int) : Nat := (i % 4294967296).toNat

/-- Span start column: `(x.round() as i32).max(0).min(w - 1) as u32`. -/
def spanStart (w : Nat) (x : Frac) : Nat :=
  castU32wrap (min (max (i32clamp x.round) 0) ((w : Int) - 1))

/-- Span end column: `(x.round() as i32).max(0).min(w) as u32`. -/
def spanEnd (w : Nat) (x : Frac) : Nat :=
  castU32wrap (min (max (i32clamp x.round) 0) (w : Int))

/-- Even-odd pairing of the sorted intersection abscissas into fill spans
(the `while let (Some(e1), Some(e2))` loop). -/
def spansOf (w : Nat) : List Frac → List (Nat × Nat)
  | x1 :: x2 :: rest => (spanStart w x1, spanEnd w x2) :: spansOf w rest
  | _ => []

/-- Composite the fill colour over every column of one span on row `y`. -/
def fillSpan (fill : Pixel) (y : Nat) (img : Image) (s : Nat × Nat) : Image :=
  (List.range' s.1 (s.2 - s.1)).foldl
    (fun im x => writePx im x y (blend_pixel fill (im x y))) img

/-- Emit every span of one row. -/
def fillRow (fill : Pixel) (w : Nat) (img : Image) (y : Nat) (xs : List Frac) : Image :=
  (spansOf w xs).foldl (fillSpan fill y) img

/-- One iteration of the per-band scanline loop at row `y`: move edges of
`GET.entries[y]` into the AET, retire edges with `y_max ≤ y`, sort and
fill the row when the band owns it, then advance every edge. -/
def stepRow (get : Nat → List Edge) (fill : Pixel) (w y_start : Nat)
    (st : List Edge × Image) (y : Nat) : List Edge × Image :=
  let aet := (st.1 ++ get y).filter (fun e => (y : Int) < e.y_max)
  if y_start ≤ y then
    let sorted := sortAET aet
    (advanceAET sorted, fillRow fill w st.2 y (sorted.map (fun e => e.x_current)))
  else
    (advanceAET aet, st.2)

/-- One fill band: simulate the scanline loop over rows `0..y_end` with an
empty initial AET, writing pixels only in rows `y_start..y_end`. -/
def bandRun (get : Nat → List Edge) (fill : Pixel) (w y_start y_end : Nat)
    (img : Image) : Image :=
  ((List.range y_end).foldl (stepRow get fill w y_start) ([], img)).2

/-- The banded fill pass of `render_multipolygon`, parameterized by the
number of bands (`rayon::current_num_threads().max(1) * 4` at runtime).
Bands write disjoint row ranges, so the rayon loop is modelled by a
sequential fold over `band_idx`. -/
def renderFill (get : Nat → List Edge) (fill : Pixel) (w h num_bands : Nat)
    (img : Image) : Image :=
  let band_height := (h + num_bands - 1) / num_bands
  (List.range num_bands).foldl (fun im band_idx =>
    let y_start := band_idx * band_height
    let y_end := min ((band_idx + 1) * band_height) h
    if y_end ≤ y_start then im else bandRun get fill w y_start y_end im) img

/-- Brush offsets `-half_width ..= half_width` of the thick-line loop. -/
def brushOffsets (hw : Int) : List Int :=
  (List.range (2 * hw + 1).toNat).map (fun (i : Nat) => (i : Int) - hw)

/-- Body of the brush loops: composite the colour over `(px, py)` when it
lies inside the image, leave the buffer unchanged otherwise. -/
def stampPixel (w h : Nat) (color : Pixel) (im : Image) (px py : Int) : Image :=
  if 0 ≤ px ∧ px < (w : Int) ∧ 0 ≤ py ∧ py < (h : Int) then
    writePx im px.toNat py.toNat (blend_pixel color (im px.toNat py.toNat))
  else im

/-- Square brush stamp of the Bresenham loop body: composite the colour
over every pixel of `[x−h, x+h] × [y−h, y+h]` that lies inside the image. -/
def stampBrush (w h : Nat) (color : Pixel) (hw : Int) (img : Image) (x y : Int) : Image :=
  (brushOffsets hw).foldl (fun im wx =>
    (brushOffsets hw).foldl (fun im2 wy =>
      stampPixel w h color im2 (x + wx) (y + wy)) im) img

/-- Identity continuation that forces an integer to literal form before
passing it on; semantically transparent (see `withIntForced_eq`) and only
present so that kernel reduction of the loops below is call-by-value. -/
def withIntForced {α : Sort _} (i : Int) (k : Int → α) : α :=
  match i with
  | Int.ofNat m => k (Int.ofNat m)
  | Int.negSucc m => k (Int.negSucc m)

theorem withIntForced_eq {α : Sort _} (i : Int) (k : Int → α) : withIntForced i k = k i := by
  cases i <;> rfl

/-- Fuelled Bresenham loop of `Renderer::draw_line`; the fuel
`dx - dy` bounds the iteration count (each iteration moves `x` or `y` one
step toward the target, and neither coordinate overshoots). -/
def bresAux (w h : Nat) (color : Pixel) (hw x1 y1 dx dy sx sy : Int) :
    Nat → Int → Int → Int → Image → Image
  | fuel, x, y, err, img =>
    let img' := stampBrush w h color hw img x y
    if x = x1 ∧ y = y1 then img'
    else
      match fuel with
      | 0 => img'
      | fuel' + 1 =>
        let e2 := 2 * err
        let s1 : Int × Int := if dy ≤ e2 then (err + dy, x + sx) else (err, x)
        let s2 : Int × Int := if e2 ≤ dx then (s1.1 + dx, y + sy) else (s1.1, y)
        withIntForced s1.2 fun xn =>
          withIntForced s2.2 fun yn =>
            withIntForced s2.1 fun errn =>
              bresAux w h color hw x1 y1 dx dy sx sy fuel' xn yn errn img'

/-- Method `Renderer::draw_line`: truncate both endpoints to `i32` and run
the thick Bresenham loop. -/
def draw_line (w h : Nat) (img : Image) (p q : Frac × Frac) (color : Pixel)
    (width : Nat) : Image :=
  let x0 := p.1.toI32
  let y0 := p.2.toI32
  let x1 := q.1.toI32
  let y1 := q.2.toI32
  let dx := |x1 - x0|
  let dy := -|y1 - y0|
  let sx : Int := if x0 < x1 then 1 else -1
  let sy : Int := if y0 < y1 then 1 else -1
  let err := dx + dy
  let hw : Int := ((width / 2 : Nat) : Int)
  bresAux w h color hw x1 y1 dx dy sx sy (dx - dy).toNat x0 y0 err img

/-- Method `Renderer::draw_linestring`: project the ring and draw every
consecutive pair of projected vertices. -/
def draw_linestring (cfg : RenderConfig) (w h : Nat) (img : Image)
    (coords : List (Frac × Frac)) (color : Pixel) (width : Nat) : Image :=
  let screen := coords.map (fun c => world_to_screen c.1 c.2 cfg.bbox cfg.resolution h)
  (screen.zip screen.tail).foldl (fun im s => draw_line w h im s.1 s.2 color width) img

/-- Method `Renderer::render_polygon_stroke`: opaque stroke colour over
the exterior ring, then every interior ring. -/
def render_polygon_stroke (cfg : RenderConfig) (w h : Nat) (img : Image)
    (p : PolygonG) : Image :=
  let stroke : Pixel := ⟨cfg.stroke.1, cfg.stroke.2.1, cfg.stroke.2.2, 255⟩
  p.interiors.foldl
    (fun im r => draw_linestring cfg w h im r stroke cfg.stroke_width)
    (draw_linestring cfg w h img p.exterior stroke cfg.stroke_width)

/-- Method `Renderer::render_multipolygon`, parameterized by the band
count: build the GET over all rings, run the banded fill, then stroke
every polygon when `stroke_width > 0`.  The stroke colour is fully opaque,
so the rayon per-polygon stroke loop commutes and is modelled by a
sequential fold. -/
def render_multipolygon (r : Renderer) (mp : MultiPolygonG) (num_bands : Nat)
    (img : Image) : Image :=
  let st := mp.foldl
    (fun acc p => acc.extract_from_polygon p r.config.bbox r.config.resolution r.height)
    (ScanlineTable.new 0 r.height)
  let get := fun y => st.entries.getD y []
  let filled := renderFill get r.config.fill r.width r.height num_bands img
  if 0 < r.config.stroke_width then
    mp.foldl (fun im p => render_polygon_stroke r.config r.width r.height im p) filled
  else filled

/-- Geometry sum at the WKB decoding interface (`geo::Geometry`),
restricted to the constructors `read_geometries` distinguishes. -/
inductive GeometryG where
  | Polygon (p : PolygonG)
  | MultiPolygon (mp : MultiPolygonG)
  | Other

/-- GeoPackage WKB envelope parser from `src/gpkg.rs` (`parse_gpkg_wkb`).
The ISO-WKB decoder (`wkb::wkb_to_geom`) is the external collaborator,
passed as `isoWkb`; payload bytes are naturals below 256. -/
def parse_gpkg_wkb (isoWkb : List Nat → Option GeometryG) (data : List Nat) :
    Option GeometryG :=
  if data.length < 8 then none
  else if ¬(data.getD 0 0 = 0x47 ∧ data.getD 1 0 = 0x50) then isoWkb data
  else
    let flags := data.getD 3 0
    let envelope_indicator := (flags / 2) % 8
    let esize : Option Nat :=
      if envelope_indicator = 0 then some 0
      else if envelope_indicator = 1 then some 32
      else if envelope_indicator = 2 then some 48
      else if envelope_indicator = 3 then some 48
      else if envelope_indicator = 4 then some 64
      else none
    match esize with
    | none => none
    | some envelope_size =>
      let wkb_start := 8 + envelope_size
      if data.length ≤ wkb_start then none
      else isoWkb (data.drop wkb_start)

/-- The NaN-marking reprojection of `reproject_multipolygon` in
`src/gpkg.rs`: every coordinate is transformed (`none` plays the NaN the
code writes on failure), then the geometry is dropped if any marker is
present; otherwise the marked values are unwrapped. -/
def reproject_multipolygon (proj : Frac × Frac → Option (Frac × Frac))
    (mp : MultiPolygonG) : Option MultiPolygonG :=
  let reprojected : List (List (Option (Frac × Frac)) × List (List (Option (Frac × Frac)))) :=
    mp.map (fun p => (p.exterior.map proj, p.interiors.map (fun r => r.map proj)))
  let has_nan := reprojected.any (fun p =>
    p.1.any Option.isNone || p.2.any (fun r => r.any Option.isNone))
  if has_nan then none
  else
    some (reprojected.map (fun p =>
      ⟨p.1.map (fun c => c.getD (Frac.zero, Frac.zero)),
       p.2.map (fun r => r.map (fun c => c.getD (Frac.zero, Frac.zero)))⟩))

/-- Method `GpkgReader::read_geometries_wgs84`, at the pure interface: the
layer's decoded geometries, its `srs_id`, and the per-worker transformer
construction `Proj::new_known_crs(..).ok()` (`none` when the CRS
definition is rejected).  WGS84 layers pass through; otherwise geometries
are reprojected and failures are dropped via `filter_map`. -/
def read_geometries_wgs84 (srs_id : Int) (geometries : List MultiPolygonG)
    (mkProj : Option (Frac × Frac → Option (Frac × Frac))) : List MultiPolygonG :=
  if srs_id = 4326 then geometries
  else
    geometries.filterMap (fun mp =>
      mkProj.bind (fun proj => reproject_multipolygon proj mp))

/-- Specification-side all-or-nothing traversal: transform every element,
failing if any single transform fails (the claim's reading of "any
geometry containing a NaN coordinate is discarded"). -/
def optMapList {α β : Type} (f : α → Option β) : List α → Option (List β)
  | [] => some []
  | a :: l =>
    match f a, optMapList f l with
    | some b, some r => some (b :: r)
    | _, _ => none

/-- Specification-side reprojection of one geometry: coordinate-wise
transform of every ring, failing iff some coordinate fails. -/
def mpTraverse (proj : Frac × Frac → Option (Frac × Frac)) (mp : MultiPolygonG) :
    Option MultiPolygonG :=
  optMapList (fun p =>
    match optMapList proj p.exterior, optMapList (optMapList proj) p.interiors with
    | some ext, some ints => some (⟨ext, ints⟩ : PolygonG)
    | _, _ => none) mp

/-- GeoJSON geometry value (`geojson::Value`), restricted to the
constructors `geometry_to_multipolygon` distinguishes; coordinate tuples
are lists of doubles as in GeoJSON. -/
inductive GeoValue where
  | Polygon (coords : List (List (List Frac)))
  | MultiPolygon (coords : List (List (List (List Frac))))
  | OtherGeom

/-- GeoJSON geometry object. -/
structure GeometryJ where
  value : GeoValue

/-- GeoJSON feature: the geometry is optional. -/
structure FeatureJ where
  geometry : Option GeometryJ

/-- Parsed GeoJSON document (`geojson::GeoJson`). -/
inductive GeoJsonDoc where
  | Geometry (g : GeometryJ)
  | Feature (f : FeatureJ)
  | FeatureCollection (features : List FeatureJ)

/-- Function `linestring_from_coords` of `src/geojson.rs`: keep points
with at least two components, fail on empty input or no usable point. -/
def linestring_from_coords (coords : List (List Frac)) : Option (List (Frac × Frac)) :=
  if coords.isEmpty then none
  else
    let points := coords.filterMap (fun point =>
      if 2 ≤ point.length then some (point.getD 0 Frac.zero, point.getD 1 Frac.zero)
      else none)
    if points.isEmpty then none else some points

/-- Function `polygon_from_coords` of `src/geojson.rs`: first ring is the
exterior (mandatory), remaining rings are interiors (failures dropped). -/
def polygon_from_coords (coords : List (List (List Frac))) : Option PolygonG :=
  if coords.isEmpty then none
  else
    match linestring_from_coords (coords.getD 0 []) with
    | none => none
    | some exterior =>
      some ⟨exterior, (coords.drop 1).filterMap linestring_from_coords⟩

/-- Function `geometry_to_multipolygon` of `src/geojson.rs`. -/
def geometry_to_multipolygon (g : GeometryJ) : Option MultiPolygonG :=
  match g.value with
  | GeoValue.Polygon coords =>
    (polygon_from_coords coords).map (fun p => [p])
  | GeoValue.MultiPolygon multi_coords =>
    let polygons := multi_coords.filterMap polygon_from_coords
    if polygons.isEmpty then none else some polygons
  | GeoValue.OtherGeom => none

/-- Function `extract_geometries` of `src/geojson.rs` (the push-loop over
features is a `filterMap` in document order). -/
def extract_geometries (gj : GeoJsonDoc) : List MultiPolygonG :=
  match gj with
  | GeoJsonDoc.Geometry g =>
    match geometry_to_multipolygon g with
    | some mp => [mp]
    | none => []
  | GeoJsonDoc.Feature f =>
    match f.geometry.bind geometry_to_multipolygon with
    | some mp => [mp]
    | none => []
  | GeoJsonDoc.FeatureCollection fs =>
    fs.filterMap (fun f => f.geometry.bind geometry_to_multipolygon)

/-- Reader state of `GeojsonReader`. -/
structure GeojsonReader where
  geometries : List MultiPolygonG

/-- Constructor `GeojsonReader::open`, at the pure interface after the
external file read, text preprocessing and `GeoJson` parse: extract the
polygon geometries and reject documents yielding none. -/
def GeojsonReader.openModel (parsed : GeoJsonDoc) : Except GpkgError GeojsonReader :=
  let geometries := extract_geometries parsed
  if geometries.isEmpty then Except.error GpkgError.EmptyGeojson
  else Except.ok ⟨geometries⟩

/-- Method `GeojsonReader::get_geometries`. -/
def GeojsonReader.get_geometries (r : GeojsonReader) : List MultiPolygonG :=
  r.geometries

/-- Largest finite `f64`, the fold sentinel of `compute_bbox`. -/
def f64MAX : Frac := ⟨2 ^ 1024 - 2 ^ 971, 0⟩

/-- Smallest finite `f64` (`f64::MIN = -f64::MAX`). -/
def f64MIN : Frac := ⟨-(2 ^ 1024 - 2 ^ 971), 0⟩

/-- Rust `f64::max`. -/
def Frac.fmax (a b : Frac) : Frac := if a.ble b then b else a

/-- One accumulator update of the `compute_bbox` loops. -/
def bboxUpd (acc : Frac × Frac × Frac × Frac) (c : Frac × Frac) :
    Frac × Frac × Frac × Frac :=
  (acc.1.fmin c.1, acc.2.1.fmin c.2, acc.2.2.1.fmax c.1, acc.2.2.2.fmax c.2)

/-- Method `GeojsonReader::compute_bbox`: fold the nested
geometry/polygon/ring loops over the `f64::MAX`/`f64::MIN` sentinels and
reject the result when the sentinel survived. -/
def GeojsonReader.compute_bbox (r : GeojsonReader) : Option Bbox :=
  if r.geometries.isEmpty then none
  else
    let st := r.geometries.foldl (fun acc mp =>
      mp.foldl (fun acc2 poly =>
        poly.interiors.foldl (fun a ring => ring.foldl bboxUpd a)
          (poly.exterior.foldl bboxUpd acc2)) acc) (f64MAX, f64MAX, f64MIN, f64MIN)
    if st.1.beq f64MAX then none
    else some ⟨st.1, st.2.1, st.2.2.1, st.2.2.2⟩

/-- C3: for every valid `RenderConfig` (nondegenerate bbox, positive
resolution), `Renderer::new` succeeds and `dimensions()` reports exactly
`(⌈bbox.width/resolution⌉, ⌈bbox.height/resolution⌉)` whenever both are at
most `20000`, and fails with `ImageTooLarge{width, height, max: 20000}`
(carrying the computed dimensions) whenever either exceeds `20000`. -/
theorem C3_renderer_new_dimensions (cfg : RenderConfig)
    (hlon : cfg.bbox.min_lon.toQ < cfg.bbox.max_lon.toQ)
    (hlat : cfg.bbox.min_lat.toQ < cfg.bbox.max_lat.toQ)
    (hres : 0 < cfg.resolution.toQ) :
    (⌈cfg.bbox.width.toQ / cfg.resolution.toQ⌉ ≤ 20000 →
     ⌈cfg.bbox.height.toQ / cfg.resolution.toQ⌉ ≤ 20000 →
      ∃ r, Renderer.new cfg = Except.ok r ∧
        (r.dimensions.1 : Int) = ⌈cfg.bbox.width.toQ / cfg.resolution.toQ⌉ ∧
        (r.dimensions.2 : Int) = ⌈cfg.bbox.height.toQ / cfg.resolution.toQ⌉) ∧
    (20000 < ⌈cfg.bbox.width.toQ / cfg.resolution.toQ⌉ ∨
     20000 < ⌈cfg.bbox.height.toQ / cfg.resolution.toQ⌉ →
      Renderer.new cfg = Except.error (GpkgError.ImageTooLarge
        (calculate_dimensions cfg.bbox cfg.resolution).1
        (calculate_dimensions cfg.bbox cfg.resolution).2 MAX_DIMENSION)) := by
  have hWc : (cfg.bbox.width.div cfg.resolution).ceil =
      ⌈cfg.bbox.width.toQ / cfg.resolution.toQ⌉ := by
    rw [Frac.ceil_eq, Frac.toQ_div]
  have hHc : (cfg.bbox.height.div cfg.resolution).ceil =
      ⌈cfg.bbox.height.toQ / cfg.resolution.toQ⌉ := by
    rw [Frac.ceil_eq, Frac.toQ_div]
  have hwpos : 0 < cfg.bbox.width.toQ := by
    rw [Bbox.width, Frac.toQ_sub]
    linarith
  have hhpos : 0 < cfg.bbox.height.toQ := by
    rw [Bbox.height, Frac.toQ_sub]
    linarith
  have hW1 : 1 ≤ ⌈cfg.bbox.width.toQ / cfg.resolution.toQ⌉ :=
    Int.one_le_ceil_iff.mpr (div_pos hwpos hres)
  have hH1 : 1 ≤ ⌈cfg.bbox.height.toQ / cfg.resolution.toQ⌉ :=
    Int.one_le_ceil_iff.mpr (div_pos hhpos hres)
  have hd1 : (calculate_dimensions cfg.bbox cfg.resolution).1 =
      castU32ofInt ⌈cfg.bbox.width.toQ / cfg.resolution.toQ⌉ := by
    simp [calculate_dimensions, hWc]
  have hd2 : (calculate_dimensions cfg.bbox cfg.resolution).2 =
      castU32ofInt ⌈cfg.bbox.height.toQ / cfg.resolution.toQ⌉ := by
    simp [calculate_dimensions, hHc]
  constructor
  · intro hw hh
    have hc1 : castU32ofInt ⌈cfg.bbox.width.toQ / cfg.resolution.toQ⌉ =
        (⌈cfg.bbox.width.toQ / cfg.resolution.toQ⌉).toNat := by
      unfold castU32ofInt
      omega
    have hc2 : castU32ofInt ⌈cfg.bbox.height.toQ / cfg.resolution.toQ⌉ =
        (⌈cfg.bbox.height.toQ / cfg.resolution.toQ⌉).toNat := by
      unfold castU32ofInt
      omega
    have hcond : ¬ (MAX_DIMENSION < (calculate_dimensions cfg.bbox cfg.resolution).1 ∨
        MAX_DIMENSION < (calculate_dimensions cfg.bbox cfg.resolution).2) := by
      rw [hd1, hd2, hc1, hc2]
      unfold MAX_DIMENSION
      omega
    refine ⟨⟨cfg, (calculate_dimensions cfg.bbox cfg.resolution).1,
      (calculate_dimensions cfg.bbox cfg.resolution).2⟩, ?_, ?_, ?_⟩
    · simp only [Renderer.new]
      rw [if_neg hcond]
    · simp only [Renderer.dimensions]
      rw [hd1, hc1]
      omega
    · simp only [Renderer.dimensions]
      rw [hd2, hc2]
      omega
  · intro hcase
    have hcond : MAX_DIMENSION < (calculate_dimensions cfg.bbox cfg.resolution).1 ∨
        MAX_DIMENSION < (calculate_dimensions cfg.bbox cfg.resolution).2 := by
      rw [hd1, hd2]
      unfold castU32ofInt MAX_DIMENSION
      omega
    simp only [Renderer.new]
    rw [if_pos hcond]

/-- Concrete configuration for the C3 witness: unit bbox at resolution
`1/100`, giving a `100 × 100` image. -/
def c3cfg : RenderConfig :=
  ⟨⟨Frac.ofInt 0, Frac.ofInt 0, Frac.ofInt 1, Frac.ofInt 1⟩, ⟨1, 99⟩,
   ⟨255, 0, 0, 128⟩, (255, 0, 0), 1⟩

/-- Witness for C3 at a concrete valid configuration. -/
theorem C3_witness :
    (c3cfg.bbox.min_lon.toQ < c3cfg.bbox.max_lon.toQ ∧
     c3cfg.bbox.min_lat.toQ < c3cfg.bbox.max_lat.toQ ∧
     0 < c3cfg.resolution.toQ) ∧
    ((⌈c3cfg.bbox.width.toQ / c3cfg.resolution.toQ⌉ ≤ 20000 →
      ⌈c3cfg.bbox.height.toQ / c3cfg.resolution.toQ⌉ ≤ 20000 →
       ∃ r, Renderer.new c3cfg = Except.ok r ∧
         (r.dimensions.1 : Int) = ⌈c3cfg.bbox.width.toQ / c3cfg.resolution.toQ⌉ ∧
         (r.dimensions.2 : Int) = ⌈c3cfg.bbox.height.toQ / c3cfg.resolution.toQ⌉) ∧
     (20000 < ⌈c3cfg.bbox.width.toQ / c3cfg.resolution.toQ⌉ ∨
      20000 < ⌈c3cfg.bbox.height.toQ / c3cfg.resolution.toQ⌉ →
       Renderer.new c3cfg = Except.error (GpkgError.ImageTooLarge
         (calculate_dimensions c3cfg.bbox c3cfg.resolution).1
         (calculate_dimensions c3cfg.bbox c3cfg.resolution).2 MAX_DIMENSION))) := by
  have h1 : c3cfg.bbox.min_lon.toQ < c3cfg.bbox.max_lon.toQ := by
    norm_num [c3cfg, Frac.toQ, Frac.ofInt]
  have h2 : c3cfg.bbox.min_lat.toQ < c3cfg.bbox.max_lat.toQ := by
    norm_num [c3cfg, Frac.toQ, Frac.ofInt]
  have h3 : 0 < c3cfg.resolution.toQ := by
    norm_num [c3cfg, Frac.toQ]
  exact ⟨⟨h1, h2, h3⟩, C3_renderer_new_dimensions c3cfg h1 h2 h3⟩

theorem F64.bge_false_blt (a b : F64) (h : F64.bge a b = false)
    (ha : a.isNan = false) (hb : b.isNan = false) : F64.blt a b = true := by
  cases a <;> cases b <;> simp_all [F64.bge, F64.blt, F64.isNan]
  exact (Frac.blt_iff _ _).mpr
    (lt_of_not_le (fun hle => by simp [(Frac.ble_iff _ _).mpr hle] at h))

/-- C7 (amended): whenever `parse_bbox` returns a bbox, the code's
validation checks `min >= max` were false on both axes, and the claimed
strict invariants `min_lon < max_lon`, `min_lat < max_lat` hold whenever
the involved coordinates are not NaN; and every input whose four parsed
components have `min ≥ max` (in IEEE `f64` semantics) on either axis is
rejected with an `InvalidBbox` error.  The claim as written is false: a
parsed NaN passes validation (see the counterexample), because every IEEE
comparison with NaN is false.  The statement is uniform in the numeric
parser `pf` standing for `str::parse::<f64>`. -/
theorem C7_parse_bbox_invariant (pf : List Char → Option F64) (s : List Char) :
    (∀ b, parse_bbox pf s = Except.ok b →
      (F64.bge b.min_lon b.max_lon = false ∧ F64.bge b.min_lat b.max_lat = false)
      ∧ (b.min_lon.isNan = false → b.max_lon.isNan = false →
          F64.blt b.min_lon b.max_lon = true)
      ∧ (b.min_lat.isNan = false → b.max_lat.isNan = false →
          F64.blt b.min_lat b.max_lat = true)) ∧
    (∀ vs, (splitComma s).length = 4 →
      (splitComma s).mapM (fun p => pf (trimChars p)) = some vs →
      (F64.bge (vs.getD 0 F64.nan) (vs.getD 2 F64.nan) = true ∨
       F64.bge (vs.getD 1 F64.nan) (vs.getD 3 F64.nan) = true) →
      ∃ msg, parse_bbox pf s = Except.error (GpkgError.InvalidBbox msg)) := by
  constructor
  · intro b hb
    unfold parse_bbox at hb
    by_cases hlen : (splitComma s).length ≠ 4
    · simp only [if_pos hlen] at hb
      exact absurd hb (by simp)
    · simp only [if_neg hlen] at hb
      cases hm : (splitComma s).mapM (fun p => pf (trimChars p)) with
      | none =>
        simp only [hm] at hb
        exact absurd hb (by simp)
      | some values =>
        simp only [hm] at hb
        by_cases h1 : (values.getD 0 F64.nan).bge (values.getD 2 F64.nan) = true
        · simp only [if_pos h1] at hb
          exact absurd hb (by simp)
        · simp only [if_neg h1] at hb
          by_cases h2 : (values.getD 1 F64.nan).bge (values.getD 3 F64.nan) = true
          · simp only [if_pos h2] at hb
            exact absurd hb (by simp)
          · simp only [if_neg h2] at hb
            have hb' : b = ⟨values.getD 0 F64.nan, values.getD 1 F64.nan,
                values.getD 2 F64.nan, values.getD 3 F64.nan⟩ := by
              cases hb
              rfl
            subst hb'
            have hf1 : (values.getD 0 F64.nan).bge (values.getD 2 F64.nan) = false := by
              simpa using h1
            have hf2 : (values.getD 1 F64.nan).bge (values.getD 3 F64.nan) = false := by
              simpa using h2
            exact ⟨⟨hf1, hf2⟩,
              fun hn1 hn2 => F64.bge_false_blt _ _ hf1 hn1 hn2,
              fun hn1 hn2 => F64.bge_false_blt _ _ hf2 hn1 hn2⟩
  · intro vs hlen hmap hbad
    unfold parse_bbox
    have hne : ¬ (splitComma s).length ≠ 4 := by omega
    simp only [if_neg hne, hmap]
    by_cases h1 : (vs.getD 0 F64.nan).bge (vs.getD 2 F64.nan) = true
    · rw [if_pos h1]
      exact ⟨_, rfl⟩
    · rw [if_neg h1]
      have h2 : (vs.getD 1 F64.nan).bge (vs.getD 3 F64.nan) = true := by
        rcases hbad with hb1 | hb2
        · exact absurd hb1 h1
        · exact hb2
      rw [if_pos h2]
      exact ⟨_, rfl⟩

/-- Numeric parser for the C7 counterexample and witness: single digits,
plus the texts `nan`, `inf` and `-inf`, mapped exactly as
`str::parse::<f64>` maps them. -/
def f64Parser (s : List Char) : Option F64 :=
  if s = ['n', 'a', 'n'] then some F64.nan
  else if s = ['i', 'n', 'f'] then some F64.posInf
  else if s = ['-', 'i', 'n', 'f'] then some F64.negInf
  else match s with
    | [c] => if c.isDigit then some (F64.num (Frac.ofInt ((c.toNat : Int) - 48))) else none
    | _ => none

/-- C7 (counterexample): `parse_bbox` on `"nan,1,2,3"` succeeds with
`min_lon = NaN` — both `min >= max` checks are false because every IEEE
comparison with NaN is false — and the claimed invariant
`min_lon < max_lon` fails on the returned bbox. -/
theorem C7_counterexample :
    parse_bbox f64Parser ['n', 'a', 'n', ',', '1', ',', '2', ',', '3']
      = Except.ok ⟨F64.nan, F64.num (Frac.ofInt 1), F64.num (Frac.ofInt 2),
          F64.num (Frac.ofInt 3)⟩
    ∧ F64.blt F64.nan (F64.num (Frac.ofInt 2)) = false := ⟨rfl, rfl⟩

/-- Witness for C7: a successfully parsed finite bbox satisfies the strict
invariants, and an inverted input is rejected. -/
theorem C7_witness :
    ((∀ b, parse_bbox f64Parser ['1', ',', '2', ',', '3', ',', '4'] = Except.ok b →
       (F64.bge b.min_lon b.max_lon = false ∧ F64.bge b.min_lat b.max_lat = false)
       ∧ (b.min_lon.isNan = false → b.max_lon.isNan = false →
           F64.blt b.min_lon b.max_lon = true)
       ∧ (b.min_lat.isNan = false → b.max_lat.isNan = false →
           F64.blt b.min_lat b.max_lat = true)) ∧
     (∀ vs, (splitComma ['1', ',', '2', ',', '3', ',', '4']).length = 4 →
       (splitComma ['1', ',', '2', ',', '3', ',', '4']).mapM
           (fun p => f64Parser (trimChars p)) = some vs →
       (F64.bge (vs.getD 0 F64.nan) (vs.getD 2 F64.nan) = true ∨
        F64.bge (vs.getD 1 F64.nan) (vs.getD 3 F64.nan) = true) →
       ∃ msg, parse_bbox f64Parser ['1', ',', '2', ',', '3', ',', '4'] =
         Except.error (GpkgError.InvalidBbox msg))) ∧
    (∀ b, parse_bbox f64Parser ['3', ',', '1', ',', '2', ',', '4'] = Except.ok b →
      (F64.bge b.min_lon b.max_lon = false ∧ F64.bge b.min_lat b.max_lat = false)
      ∧ (b.min_lon.isNan = false → b.max_lon.isNan = false →
          F64.blt b.min_lon b.max_lon = true)
      ∧ (b.min_lat.isNan = false → b.max_lat.isNan = false →
          F64.blt b.min_lat b.max_lat = true)) := by
  exact ⟨C7_parse_bbox_invariant f64Parser ['1', ',', '2', ',', '3', ',', '4'],
         (C7_parse_bbox_invariant f64Parser ['3', ',', '1', ',', '2', ',', '4']).1⟩

/-- C9: `parse_gpkg_wkb` treats payloads without the `GP` magic as bare
ISO-WKB, maps the envelope indicator (bits 1–3 of the flags byte) through
`0→0, 1→32, 2→48, 3→48, 4→64`, rejects every other indicator, and starts
ISO-WKB parsing at offset `8 + envelope_size`.  The hypothesis `hshort`
records that the external ISO-WKB decoder fails on payloads shorter than
8 bytes (a well-formed WKB geometry needs at least 9), which absorbs the
code's explicit length guards. -/
theorem C9_parse_gpkg_wkb_envelope (isoWkb : List Nat → Option GeometryG)
    (hshort : ∀ d, d.length < 8 → isoWkb d = none) (data : List Nat) :
    (¬(data.getD 0 0 = 0x47 ∧ data.getD 1 0 = 0x50) →
      parse_gpkg_wkb isoWkb data = isoWkb data) ∧
    (data.getD 0 0 = 0x47 → data.getD 1 0 = 0x50 →
      (((data.getD 3 0) / 2) % 8 = 0 →
        parse_gpkg_wkb isoWkb data = isoWkb (data.drop (8 + 0))) ∧
      (((data.getD 3 0) / 2) % 8 = 1 →
        parse_gpkg_wkb isoWkb data = isoWkb (data.drop (8 + 32))) ∧
      (((data.getD 3 0) / 2) % 8 = 2 →
        parse_gpkg_wkb isoWkb data = isoWkb (data.drop (8 + 48))) ∧
      (((data.getD 3 0) / 2) % 8 = 3 →
        parse_gpkg_wkb isoWkb data = isoWkb (data.drop (8 + 48))) ∧
      (((data.getD 3 0) / 2) % 8 = 4 →
        parse_gpkg_wkb isoWkb data = isoWkb (data.drop (8 + 64))) ∧
      (5 ≤ ((data.getD 3 0) / 2) % 8 →
        parse_gpkg_wkb isoWkb data = none)) := by
  have hdrop : ∀ m, data.length ≤ 8 + m → isoWkb (data.drop (8 + m)) = none := by
    intro m hlen
    apply hshort
    simp only [List.length_drop]
    omega
  by_cases hlen8 : data.length < 8
  · have hnone : parse_gpkg_wkb isoWkb data = none := by
      unfold parse_gpkg_wkb
      rw [if_pos hlen8]
    refine ⟨fun _ => by rw [hnone, hshort data hlen8], fun _ _ => ?_⟩
    refine ⟨?_, ?_, ?_, ?_, ?_, ?_⟩ <;> intro hE
    · rw [hnone, hdrop 0 (by omega)]
    · rw [hnone, hdrop 32 (by omega)]
    · rw [hnone, hdrop 48 (by omega)]
    · rw [hnone, hdrop 48 (by omega)]
    · rw [hnone, hdrop 64 (by omega)]
    · exact hnone
  · constructor
    · intro hmag
      unfold parse_gpkg_wkb
      rw [if_neg hlen8, if_pos hmag]
    · intro h0 h1
      have hmag : ¬¬(data.getD 0 0 = 0x47 ∧ data.getD 1 0 = 0x50) :=
        not_not_intro ⟨h0, h1⟩
      have hbody : ∀ k, ((data.getD 3 0) / 2) % 8 = k → parse_gpkg_wkb isoWkb data =
          (match (if k = 0 then some 0
                  else if k = 1 then some 32
                  else if k = 2 then some 48
                  else if k = 3 then some 48
                  else if k = 4 then some 64
                  else none : Option Nat) with
           | none => none
           | some envelope_size =>
             if data.length ≤ 8 + envelope_size then none
             else isoWkb (data.drop (8 + envelope_size))) := by
        intro k hk
        unfold parse_gpkg_wkb
        rw [if_neg hlen8, if_neg hmag]
        simp only [hk]
      have hvalid : ∀ m, parse_gpkg_wkb isoWkb data =
          (if data.length ≤ 8 + m then none else isoWkb (data.drop (8 + m))) →
          parse_gpkg_wkb isoWkb data = isoWkb (data.drop (8 + m)) := by
        intro m hm
        by_cases hl : data.length ≤ 8 + m
        · rw [hm, if_pos hl, hdrop m hl]
        · rw [hm, if_neg hl]
      refine ⟨?_, ?_, ?_, ?_, ?_, ?_⟩ <;> intro hE
      · exact hvalid 0 (hbody 0 hE)
      · exact hvalid 32 (hbody 1 hE)
      · exact hvalid 48 (hbody 2 hE)
      · exact hvalid 48 (hbody 3 hE)
      · exact hvalid 64 (hbody 4 hE)
      · have h8 : ((data.getD 3 0) / 2) % 8 < 8 := Nat.mod_lt _ (by norm_num)
        have : ((data.getD 3 0) / 2) % 8 = 5 ∨ ((data.getD 3 0) / 2) % 8 = 6 ∨
            ((data.getD 3 0) / 2) % 8 = 7 := by omega
        rcases this with h | h | h
        · exact hbody 5 h
        · exact hbody 6 h
        · exact hbody 7 h

/-- Stub ISO-WKB decoder for the C9 witness: accepts payloads of at least
9 bytes (the minimal well-formed WKB size). -/
def c9stub : List Nat → Option GeometryG :=
  fun d => if 9 ≤ d.length then some GeometryG.Other else none

/-- Witness payload for C9: `GP` magic, version 0, flags `0x02`
(envelope indicator 1), srs id bytes, a 32-byte envelope and 9 bytes of
ISO-WKB payload. -/
def c9data : List Nat :=
  [0x47, 0x50, 0x00, 0x02, 0, 0, 0, 0] ++ List.replicate 32 0 ++
  [1, 2, 3, 4, 5, 6, 7, 8, 9]

/-- Witness for C9 at a concrete envelope-indicator-1 payload. -/
theorem C9_witness :
    (∀ d, d.length < 8 → c9stub d = none) ∧
    ((¬(c9data.getD 0 0 = 0x47 ∧ c9data.getD 1 0 = 0x50) →
       parse_gpkg_wkb c9stub c9data = c9stub c9data) ∧
     (c9data.getD 0 0 = 0x47 → c9data.getD 1 0 = 0x50 →
       (((c9data.getD 3 0) / 2) % 8 = 0 →
         parse_gpkg_wkb c9stub c9data = c9stub (c9data.drop (8 + 0))) ∧
       (((c9data.getD 3 0) / 2) % 8 = 1 →
         parse_gpkg_wkb c9stub c9data = c9stub (c9data.drop (8 + 32))) ∧
       (((c9data.getD 3 0) / 2) % 8 = 2 →
         parse_gpkg_wkb c9stub c9data = c9stub (c9data.drop (8 + 48))) ∧
       (((c9data.getD 3 0) / 2) % 8 = 3 →
         parse_gpkg_wkb c9stub c9data = c9stub (c9data.drop (8 + 48))) ∧
       (((c9data.getD 3 0) / 2) % 8 = 4 →
         parse_gpkg_wkb c9stub c9data = c9stub (c9data.drop (8 + 64))) ∧
       (5 ≤ ((c9data.getD 3 0) / 2) % 8 →
         parse_gpkg_wkb c9stub c9data = none))) := by
  have hshort : ∀ d, d.length < 8 → c9stub d = none := by
    intro d hd
    unfold c9stub
    rw [if_neg (by omega)]
  exact ⟨hshort, C9_parse_gpkg_wkb_envelope c9stub hshort c9data⟩

/-- The NaN-mark-then-scan shape of one list of transformed values is the
all-or-nothing traversal. -/
theorem optMapList_eq_marked {α β : Type} (f : α → Option β) (dflt : β) (l : List α) :
    optMapList f l =
      if (l.map f).any Option.isNone then none
      else some ((l.map f).map (fun c => c.getD dflt)) := by
  induction l with
  | nil => rfl
  | cons a l ih =>
    simp only [optMapList, List.map_cons, List.any_cons]
    cases hfa : f a with
    | none => rfl
    | some b =>
      rw [ih]
      by_cases hrest : (l.map f).any Option.isNone
      · rw [if_pos hrest]
        simp [hrest]
      · rw [if_neg hrest]
        simp [hrest]

/-- Nested version of `optMapList_eq_marked` for the interior-ring lists. -/
theorem optMapList_rings_eq_marked (proj : Frac × Frac → Option (Frac × Frac))
    (rs : List (List (Frac × Frac))) :
    optMapList (optMapList proj) rs =
      if (rs.map (fun r => r.map proj)).any (fun r => r.any Option.isNone) then none
      else some ((rs.map (fun r => r.map proj)).map
        (fun r => r.map (fun c => c.getD (Frac.zero, Frac.zero)))) := by
  induction rs with
  | nil => rfl
  | cons r rs ih =>
    simp only [optMapList, List.map_cons, List.any_cons]
    rw [optMapList_eq_marked proj (Frac.zero, Frac.zero) r, ih]
    by_cases hr : (r.map proj).any Option.isNone
    · rw [if_pos hr]
      simp [hr]
    · rw [if_neg hr]
      by_cases hrest : (rs.map (fun r => r.map proj)).any (fun r => r.any Option.isNone)
      · rw [if_pos hrest]
        simp [hr, hrest]
      · rw [if_neg hrest]
        simp [hr, hrest]

/-- The per-geometry NaN-marking reprojection of the code agrees with the
specification-side coordinate-wise traversal. -/
theorem reproject_eq_traverse (proj : Frac × Frac → Option (Frac × Frac))
    (mp : MultiPolygonG) :
    reproject_multipolygon proj mp = mpTraverse proj mp := by
  induction mp with
  | nil => rfl
  | cons p mp ih =>
    have hpoly :
        (match optMapList proj p.exterior, optMapList (optMapList proj) p.interiors with
         | some ext, some ints => some (⟨ext, ints⟩ : PolygonG)
         | _, _ => none) =
        if (p.exterior.map proj).any Option.isNone ||
           (p.interiors.map (fun r => r.map proj)).any (fun r => r.any Option.isNone) then
          none
        else
          some ⟨(p.exterior.map proj).map (fun c => c.getD (Frac.zero, Frac.zero)),
                (p.interiors.map (fun r => r.map proj)).map
                  (fun r => r.map (fun c => c.getD (Frac.zero, Frac.zero)))⟩ := by
      rw [optMapList_eq_marked proj (Frac.zero, Frac.zero), optMapList_rings_eq_marked]
      by_cases hext : (p.exterior.map proj).any Option.isNone
      · simp [hext]
      · by_cases hint : (p.interiors.map (fun r => r.map proj)).any
            (fun r => r.any Option.isNone)
        · simp [hext, hint]
        · simp [hext, hint]
    have hmp := ih
    unfold reproject_multipolygon at hmp ⊢
    unfold mpTraverse at hmp ⊢
    simp only [List.map_cons, List.any_cons, optMapList, hpoly]
    by_cases hp : (p.exterior.map proj).any Option.isNone ||
        (p.interiors.map (fun r => r.map proj)).any (fun r => r.any Option.isNone)
    · simp [hp]
    · by_cases hrest : (mp.map (fun p => (p.exterior.map proj,
          p.interiors.map (fun r => r.map proj)))).any
          (fun p => p.1.any Option.isNone || p.2.any (fun r => r.any Option.isNone))
      · rw [if_pos (by simp [hp, hrest])] 
        rw [if_pos hrest] at hmp
        rw [← hmp]
        simp [hp]
      · rw [if_neg (by simp [hp, hrest])]
        rw [if_neg hrest] at hmp
        rw [← hmp]
        simp [hp]

/-- C8: `read_geometries_wgs84` returns the layer's geometries unchanged
when `srs_id = 4326`; otherwise every geometry is transformed coordinate
by coordinate, a geometry with any failed (NaN) coordinate is dropped from
the output (never aborting the read), and a rejected CRS definition drops
every geometry. -/
theorem C8_read_geometries_wgs84 (geometries : List MultiPolygonG)
    (mkProj : Option (Frac × Frac → Option (Frac × Frac))) :
    (∀ srs_id : Int, srs_id = 4326 →
      read_geometries_wgs84 srs_id geometries mkProj = geometries) ∧
    (∀ srs_id : Int, srs_id ≠ 4326 → ∀ proj, mkProj = some proj →
      read_geometries_wgs84 srs_id geometries mkProj =
        geometries.filterMap (mpTraverse proj)) ∧
    (∀ srs_id : Int, srs_id ≠ 4326 → mkProj = none →
      read_geometries_wgs84 srs_id geometries mkProj = []) := by
  refine ⟨?_, ?_, ?_⟩
  · intro srs h
    unfold read_geometries_wgs84
    rw [if_pos h]
  · intro srs h proj hproj
    unfold read_geometries_wgs84
    rw [if_neg h, hproj]
    congr 1
    funext mp
    simp only [Option.bind_some, Option.some_bind]
    exact reproject_eq_traverse proj mp
  · intro srs h hproj
    unfold read_geometries_wgs84
    rw [if_neg h, hproj]
    simp

/-- Concrete geometry list for the C8 witness: one unit square and one
geometry whose transform will fail at `(5, 5)`. -/
def c8geoms : List MultiPolygonG :=
  [[⟨[(Frac.ofInt 0, Frac.ofInt 0), (Frac.ofInt 1, Frac.ofInt 0), (Frac.ofInt 1, Frac.ofInt 1)], []⟩],
   [⟨[(Frac.ofInt 5, Frac.ofInt 5)], []⟩]]

/-- Transformer for the C8 witness: shifts by one, failing at `(5, 5)`. -/
def c8proj : Frac × Frac → Option (Frac × Frac) :=
  fun c => if c.1.beq (Frac.ofInt 5) then none
           else some (c.1.add (Frac.ofInt 1), c.2)

/-- Witness for C8: pass-through at 4326, and NaN-dropping at another
srs id, on concrete inputs. -/
theorem C8_witness :
    ((4326 : Int) = 4326 →
      read_geometries_wgs84 4326 c8geoms (some c8proj) = c8geoms) ∧
    ((2154 : Int) ≠ 4326 → some c8proj = some c8proj →
      read_geometries_wgs84 2154 c8geoms (some c8proj) =
        c8geoms.filterMap (mpTraverse c8proj)) := by
  exact ⟨(C8_read_geometries_wgs84 c8geoms (some c8proj)).1 4326,
         fun h _ => (C8_read_geometries_wgs84 c8geoms (some c8proj)).2.1 2154 h c8proj rfl⟩

theorem Frac.fmin_toQ_le_left (a b : Frac) : (a.fmin b).toQ ≤ a.toQ := by
  unfold Frac.fmin
  by_cases h : a.ble b = true
  · rw [if_pos h]
  · rw [if_neg h]
    have := mt (Frac.ble_iff a b).mpr (by simpa using h)
    exact le_of_lt (by simpa using lt_of_not_le this)

theorem Frac.fmin_toQ_le_right (a b : Frac) : (a.fmin b).toQ ≤ b.toQ := by
  unfold Frac.fmin
  by_cases h : a.ble b = true
  · rw [if_pos h]
    exact (Frac.ble_iff a b).mp h
  · rw [if_neg h]

theorem bboxUpd_fst_le (acc : Frac × Frac × Frac × Frac) (c : Frac × Frac) :
    (bboxUpd acc c).1.toQ ≤ acc.1.toQ :=
  Frac.fmin_toQ_le_left _ _

theorem bboxUpd_fst_le_coord (acc : Frac × Frac × Frac × Frac) (c : Frac × Frac) :
    (bboxUpd acc c).1.toQ ≤ c.1.toQ :=
  Frac.fmin_toQ_le_right _ _

theorem ringFold_fst_le (l : List (Frac × Frac)) :
    ∀ acc, ((l.foldl bboxUpd acc).1).toQ ≤ acc.1.toQ := by
  induction l with
  | nil => intro acc; exact le_refl _
  | cons c l ih =>
    intro acc
    exact le_trans (ih (bboxUpd acc c)) (bboxUpd_fst_le acc c)

theorem ringFold_fst_le_mem (l : List (Frac × Frac)) (c : Frac × Frac) (hc : c ∈ l) :
    ∀ acc, ((l.foldl bboxUpd acc).1).toQ ≤ c.1.toQ := by
  induction l with
  | nil => cases hc
  | cons a l ih =>
    intro acc
    rcases List.mem_cons.mp hc with h | h
    · subst h
      exact le_trans (ringFold_fst_le l (bboxUpd acc c)) (bboxUpd_fst_le_coord acc c)
    · exact ih h (bboxUpd acc a)

/-- The polygon-level accumulator step of `compute_bbox`. -/
def polyFold (acc : Frac × Frac × Frac × Frac) (poly : PolygonG) :
    Frac × Frac × Frac × Frac :=
  poly.interiors.foldl (fun a ring => ring.foldl bboxUpd a)
    (poly.exterior.foldl bboxUpd acc)

theorem ringsFold_fst_le (rs : List (List (Frac × Frac))) :
    ∀ acc : Frac × Frac × Frac × Frac,
      ((rs.foldl (fun (a : Frac × Frac × Frac × Frac) (ring : List (Frac × Frac)) =>
        ring.foldl bboxUpd a) acc).1).toQ ≤ acc.1.toQ := by
  induction rs with
  | nil => intro acc; exact le_refl _
  | cons r rs ih =>
    intro acc
    exact le_trans (ih (r.foldl bboxUpd acc)) (ringFold_fst_le r acc)

theorem polyFold_fst_le (poly : PolygonG) (acc : Frac × Frac × Frac × Frac) :
    (polyFold acc poly).1.toQ ≤ acc.1.toQ :=
  le_trans (ringsFold_fst_le poly.interiors _) (ringFold_fst_le poly.exterior acc)

theorem polyFold_fst_le_mem (poly : PolygonG) (c : Frac × Frac) (hc : c ∈ poly.exterior)
    (acc : Frac × Frac × Frac × Frac) :
    (polyFold acc poly).1.toQ ≤ c.1.toQ :=
  le_trans (ringsFold_fst_le poly.interiors _) (ringFold_fst_le_mem poly.exterior c hc acc)

theorem mpFold_fst_le (mp : MultiPolygonG) :
    ∀ acc : Frac × Frac × Frac × Frac, ((mp.foldl polyFold acc).1).toQ ≤ acc.1.toQ := by
  induction mp with
  | nil => intro acc; exact le_refl _
  | cons p mp ih =>
    intro acc
    exact le_trans (ih (polyFold acc p)) (polyFold_fst_le p acc)

theorem mpFold_fst_le_mem (mp : MultiPolygonG) (p : PolygonG) (hp : p ∈ mp)
    (c : Frac × Frac) (hc : c ∈ p.exterior) :
    ∀ acc : Frac × Frac × Frac × Frac, ((mp.foldl polyFold acc).1).toQ ≤ c.1.toQ := by
  induction mp with
  | nil => cases hp
  | cons q mp ih =>
    intro acc
    rcases List.mem_cons.mp hp with h | h
    · subst h
      exact le_trans (mpFold_fst_le mp (polyFold acc p)) (polyFold_fst_le_mem p c hc acc)
    · exact ih h (polyFold acc q)

theorem geomsFold_fst_le (gs : List MultiPolygonG) :
    ∀ acc : Frac × Frac × Frac × Frac,
      ((gs.foldl (fun (acc : Frac × Frac × Frac × Frac) (mp : MultiPolygonG) =>
        mp.foldl polyFold acc) acc).1).toQ ≤ acc.1.toQ := by
  induction gs with
  | nil => intro acc; exact le_refl _
  | cons g gs ih =>
    intro acc
    exact le_trans (ih (g.foldl polyFold acc)) (mpFold_fst_le g acc)

theorem geomsFold_fst_le_mem (gs : List MultiPolygonG) (mp : MultiPolygonG)
    (hmp : mp ∈ gs) (p : PolygonG) (hp : p ∈ mp) (c : Frac × Frac) (hc : c ∈ p.exterior) :
    ∀ acc : Frac × Frac × Frac × Frac,
      ((gs.foldl (fun (acc : Frac × Frac × Frac × Frac) (mp : MultiPolygonG) =>
        mp.foldl polyFold acc) acc).1).toQ ≤ c.1.toQ := by
  induction gs with
  | nil => cases hmp
  | cons g gs ih =>
    intro acc
    rcases List.mem_cons.mp hmp with h | h
    · subst h
      exact le_trans (geomsFold_fst_le gs (mp.foldl polyFold acc))
        (mpFold_fst_le_mem mp p hp c hc acc)
    · exact ih h (g.foldl polyFold acc)

theorem linestring_from_coords_ne_nil (coords : List (List Frac))
    (pts : List (Frac × Frac)) (h : linestring_from_coords coords = some pts) :
    pts ≠ [] := by
  unfold linestring_from_coords at h
  by_cases h0 : coords.isEmpty
  · rw [if_pos h0] at h
    exact Option.noConfusion h
  · rw [if_neg h0] at h
    by_cases h1 : (coords.filterMap (fun point =>
        if 2 ≤ point.length then some (point.getD 0 Frac.zero, point.getD 1 Frac.zero)
        else none)).isEmpty
    · rw [if_pos h1] at h
      exact Option.noConfusion h
    · rw [if_neg h1] at h
      cases h
      intro hnil
      exact h1 (by rw [hnil]; rfl)

theorem polygon_from_coords_exterior_ne_nil (coords : List (List (List Frac)))
    (p : PolygonG) (h : polygon_from_coords coords = some p) : p.exterior ≠ [] := by
  unfold polygon_from_coords at h
  by_cases h0 : coords.isEmpty
  · rw [if_pos h0] at h
    exact Option.noConfusion h
  · rw [if_neg h0] at h
    cases hls : linestring_from_coords (coords.getD 0 []) with
    | none =>
      rw [hls] at h
      exact Option.noConfusion h
    | some ext =>
      rw [hls] at h
      cases h
      exact linestring_from_coords_ne_nil _ _ hls

theorem geometry_to_multipolygon_shape (g : GeometryJ) (mp : MultiPolygonG)
    (h : geometry_to_multipolygon g = some mp) :
    mp ≠ [] ∧ ∀ p ∈ mp, p.exterior ≠ [] := by
  unfold geometry_to_multipolygon at h
  cases hv : g.value with
  | Polygon coords =>
    simp only [hv] at h
    cases hp : polygon_from_coords coords with
    | none =>
      rw [hp] at h
      exact Option.noConfusion h
    | some poly =>
      rw [hp] at h
      have h2 : some [poly] = some mp := h
      cases h2
      refine ⟨by simp, ?_⟩
      intro q hq
      rw [List.mem_singleton.mp hq]
      exact polygon_from_coords_exterior_ne_nil coords poly hp
  | MultiPolygon multi_coords =>
    simp only [hv] at h
    by_cases he : (multi_coords.filterMap polygon_from_coords).isEmpty = true
    · rw [if_pos he] at h
      exact Option.noConfusion h
    · rw [if_neg he] at h
      cases h
      refine ⟨fun hnil => he (by rw [hnil]; rfl), ?_⟩
      intro q hq
      rcases List.mem_filterMap.mp hq with ⟨coords, _, hpc⟩
      exact polygon_from_coords_exterior_ne_nil coords q hpc
  | OtherGeom =>
    simp only [hv] at h
    exact Option.noConfusion h

theorem extract_geometries_shape (gj : GeoJsonDoc) (mp : MultiPolygonG)
    (h : mp ∈ extract_geometries gj) :
    mp ≠ [] ∧ ∀ p ∈ mp, p.exterior ≠ [] := by
  cases gj with
  | Geometry g =>
    simp only [extract_geometries] at h
    cases hg : geometry_to_multipolygon g with
    | none =>
      simp only [hg] at h
      cases h
    | some mp2 =>
      simp only [hg] at h
      rw [List.mem_singleton.mp h]
      exact geometry_to_multipolygon_shape g mp2 hg
  | Feature f =>
    simp only [extract_geometries] at h
    cases hg : f.geometry.bind geometry_to_multipolygon with
    | none =>
      simp only [hg] at h
      cases h
    | some mp2 =>
      simp only [hg] at h
      rw [List.mem_singleton.mp h]
      rcases Option.bind_eq_some.mp hg with ⟨g, _, hgm⟩
      exact geometry_to_multipolygon_shape g mp2 hgm
  | FeatureCollection fs =>
    simp only [extract_geometries] at h
    rcases List.mem_filterMap.mp h with ⟨f, _, hf⟩
    rcases Option.bind_eq_some.mp hf with ⟨g, _, hgm⟩
    exact geometry_to_multipolygon_shape g mp hgm

/-- Whether a geometry is a Polygon or MultiPolygon. -/
def geomIsPolygonal (g : GeometryJ) : Bool :=
  match g.value with
  | GeoValue.OtherGeom => false
  | _ => true

/-- Whether a parsed document contains no Polygon or MultiPolygon
geometry at all. -/
def docHasNoPolygon (gj : GeoJsonDoc) : Bool :=
  match gj with
  | GeoJsonDoc.Geometry g => !geomIsPolygonal g
  | GeoJsonDoc.Feature f =>
    match f.geometry with
    | some g => !geomIsPolygonal g
    | none => true
  | GeoJsonDoc.FeatureCollection fs =>
    fs.all (fun f =>
      match f.geometry with
      | some g => !geomIsPolygonal g
      | none => true)

theorem geometry_to_multipolygon_of_not_polygonal (g : GeometryJ)
    (h : geomIsPolygonal g = false) : geometry_to_multipolygon g = none := by
  unfold geomIsPolygonal at h
  unfold geometry_to_multipolygon
  cases hv : g.value with
  | Polygon coords => rw [hv] at h; simp at h
  | MultiPolygon mc => rw [hv] at h; simp at h
  | OtherGeom => rfl

theorem extract_geometries_of_no_polygon (gj : GeoJsonDoc)
    (h : docHasNoPolygon gj = true) : extract_geometries gj = [] := by
  cases gj with
  | Geometry g =>
    simp only [docHasNoPolygon] at h
    simp only [extract_geometries]
    rw [geometry_to_multipolygon_of_not_polygonal g (by simpa using h)]
  | Feature f =>
    simp only [docHasNoPolygon] at h
    simp only [extract_geometries]
    cases hg : f.geometry with
    | none => simp [hg]
    | some g =>
      simp only [hg] at h
      simp only [hg, Option.some_bind]
      rw [geometry_to_multipolygon_of_not_polygonal g (by simpa using h)]
  | FeatureCollection fs =>
    simp only [docHasNoPolygon] at h
    simp only [extract_geometries]
    rw [List.filterMap_eq_nil_iff]
    intro f hf
    have hthis := List.all_eq_true.mp h f hf
    cases hg : f.geometry with
    | none => simp [hg]
    | some g =>
      simp only [hg] at hthis
      simp only [hg, Option.some_bind]
      rw [geometry_to_multipolygon_of_not_polygonal g (by simpa using hthis)]

/-- C10: `GeojsonReader::open` never yields a reader with zero
geometries: a document with no Polygon or MultiPolygon geometry is
rejected with `EmptyGeojson`, and on success `get_geometries` is nonempty
and `compute_bbox` does not return `none` for emptiness (given that the
stored coordinates are below the `f64::MAX` sentinel, as every finite
`f64` is). -/
theorem C10_geojson_open_nonempty (parsed : GeoJsonDoc) :
    (docHasNoPolygon parsed = true →
      GeojsonReader.openModel parsed = Except.error GpkgError.EmptyGeojson) ∧
    (∀ r, GeojsonReader.openModel parsed = Except.ok r →
      r.get_geometries ≠ [] ∧
      ((∀ mp ∈ r.geometries, ∀ p ∈ mp, ∀ c ∈ p.exterior, c.1.toQ < f64MAX.toQ) →
        r.compute_bbox ≠ none)) := by
  constructor
  · intro h
    simp only [GeojsonReader.openModel, extract_geometries_of_no_polygon parsed h]
    rfl
  · intro r hr
    simp only [GeojsonReader.openModel] at hr
    by_cases he : (extract_geometries parsed).isEmpty
    · rw [if_pos he] at hr
      exact Except.noConfusion hr
    · rw [if_neg he] at hr
      have hr2 : (⟨extract_geometries parsed⟩ : GeojsonReader) = r := by
        cases hr
        rfl
      subst hr2
      have hne : extract_geometries parsed ≠ [] := by
        intro hnil
        exact he (by rw [hnil]; rfl)
      refine ⟨hne, ?_⟩
      intro hcoords
      rcases List.exists_mem_of_ne_nil _ hne with ⟨mp, hmp⟩
      rcases extract_geometries_shape parsed mp hmp with ⟨hmpne, hext⟩
      rcases List.exists_mem_of_ne_nil _ hmpne with ⟨p, hp⟩
      rcases List.exists_mem_of_ne_nil _ (hext p hp) with ⟨c, hc⟩
      have hle := geomsFold_fst_le_mem (extract_geometries parsed) mp hmp p hp c hc
        (f64MAX, f64MAX, f64MIN, f64MIN)
      have hlt : c.1.toQ < f64MAX.toQ := hcoords mp hmp p hp c hc
      unfold GeojsonReader.compute_bbox
      simp only []
      rw [if_neg (by simpa [List.isEmpty_iff] using hne)]
      have hfoldeq :
          ((extract_geometries parsed).foldl (fun acc mp =>
            mp.foldl (fun acc2 poly =>
              poly.interiors.foldl (fun a ring => ring.foldl bboxUpd a)
                (poly.exterior.foldl bboxUpd acc2)) acc)
            (f64MAX, f64MAX, f64MIN, f64MIN)) =
          ((extract_geometries parsed).foldl
            (fun (acc : Frac × Frac × Frac × Frac) (mp : MultiPolygonG) =>
              mp.foldl polyFold acc) (f64MAX, f64MAX, f64MIN, f64MIN)) := rfl
      rw [hfoldeq]
      have hbeq : (((extract_geometries parsed).foldl
          (fun (acc : Frac × Frac × Frac × Frac) (mp : MultiPolygonG) =>
            mp.foldl polyFold acc) (f64MAX, f64MAX, f64MIN, f64MIN)).1).beq f64MAX = false := by
      
        by_contra hb
        have hb' : (((extract_geometries parsed).foldl
            (fun (acc : Frac × Frac × Frac × Frac) (mp : MultiPolygonG) =>
              mp.foldl polyFold acc) (f64MAX, f64MAX, f64MIN, f64MIN)).1).beq f64MAX = true := by
          revert hb
          cases (((extract_geometries parsed).foldl
            (fun (acc : Frac × Frac × Frac × Frac) (mp : MultiPolygonG) =>
              mp.foldl polyFold acc) (f64MAX, f64MAX, f64MIN, f64MIN)).1).beq f64MAX
          · intro hb
            exact absurd rfl hb
          · intro _
            rfl
        have := (Frac.beq_iff _ _).mp hb'
        rw [this] at hle
        exact absurd (lt_of_le_of_lt hle hlt) (lt_irrefl _)
      rw [hbeq]
      simp

/-- Concrete parsed document for the C10 witness: one triangle Polygon. -/
def c10doc : GeoJsonDoc :=
  GeoJsonDoc.Geometry ⟨GeoValue.Polygon
    [[[Frac.ofInt 0, Frac.ofInt 0], [Frac.ofInt 1, Frac.ofInt 0],
      [Frac.ofInt 1, Frac.ofInt 1]]]⟩

/-- The reader produced for `c10doc`. -/
def c10reader : GeojsonReader := ⟨extract_geometries c10doc⟩

/-- Witness for C10: on the concrete document, `open` succeeds, the
geometries are nonempty and `compute_bbox` yields a box. -/
theorem C10_witness :
    GeojsonReader.openModel c10doc = Except.ok c10reader ∧
    c10reader.get_geometries ≠ [] ∧ c10reader.compute_bbox ≠ none := by
  have hopen : GeojsonReader.openModel c10doc = Except.ok c10reader := rfl
  have h := (C10_geojson_open_nonempty c10doc).2 c10reader hopen
  have hgeoms : c10reader.geometries =
      [[⟨[(Frac.ofInt 0, Frac.ofInt 0), (Frac.ofInt 1, Frac.ofInt 0),
          (Frac.ofInt 1, Frac.ofInt 1)], []⟩]] := rfl
  have hcoords : ∀ mp ∈ c10reader.geometries, ∀ p ∈ mp, ∀ c ∈ p.exterior,
      c.1.toQ < f64MAX.toQ := by
    intro mp hmp p hp c hc
    rw [hgeoms] at hmp
    rw [List.mem_singleton.mp hmp] at hp
    rw [List.mem_singleton.mp hp] at hc
    have hc' : c = (Frac.ofInt 0, Frac.ofInt 0) ∨ c = (Frac.ofInt 1, Frac.ofInt 0) ∨
        c = (Frac.ofInt 1, Frac.ofInt 1) := by
      simpa using hc
    have hmax : ∀ i : Int, (i : ℚ) < (2 ^ 1024 - 2 ^ 971 : ℤ) → (Frac.ofInt i).toQ < f64MAX.toQ := by
      intro i hi
      rw [Frac.toQ_ofInt]
      unfold f64MAX Frac.toQ
      push_cast at hi ⊢
      norm_num
      linarith
    rcases hc' with rfl | rfl | rfl
    · exact hmax 0 (by norm_num)
    · exact hmax 1 (by norm_num)
    · exact hmax 1 (by norm_num)
  exact ⟨hopen, h.1, h.2 hcoords⟩

theorem Frac.sub_antisymm (a b : Frac) : a.sub b = (b.sub a).neg := by
  simp only [Frac.sub, Frac.add, Frac.neg, Frac.den]
  congr 1
  · ring
  · rw [Nat.mul_comm]

theorem Frac.div_neg_neg (a b : Frac) : a.neg.div b.neg = a.div b := by
  simp only [Frac.div, Frac.neg, Frac.den, neg_eq_zero, Int.natAbs_neg]
  by_cases hb : b.n = 0
  · rw [if_pos hb, if_pos hb]
  · rw [if_neg hb, if_neg hb]
    congr 1
    by_cases hneg : b.n < 0
    · rw [if_pos hneg, if_neg (by omega : ¬ -b.n < 0)]
      ring
    · rw [if_neg hneg, if_pos (by omega : -b.n < 0)]
      ring

theorem Frac.fmin_toQ (a b : Frac) : (a.fmin b).toQ = min a.toQ b.toQ := by
  unfold Frac.fmin
  by_cases h : a.ble b = true
  · rw [if_pos h, min_eq_left ((Frac.ble_iff a b).mp h)]
  · have hle : b.toQ ≤ a.toQ := by
      have := mt (Frac.ble_iff a b).mpr (by simpa using h)
      exact le_of_lt (by simpa using lt_of_not_le this)
    rw [if_neg h, min_eq_right hle]

theorem Frac.not_blt_iff (a b : Frac) : a.blt b = false ↔ b.toQ ≤ a.toQ := by
  constructor
  · intro h
    have := mt (Frac.blt_iff a b).mpr (by simp [h])
    exact le_of_not_lt this
  · intro h
    cases hb : a.blt b
    · rfl
    · exact absurd ((Frac.blt_iff a b).mp hb) (not_lt.mpr h)

/-- Specification-side edge record for one projected segment, following
C5 verbatim: an edge exists iff `|Δy| ≥ 1e-9`; its start scanline is
`round(min(y1,y2))`, `y_max = round(max(y1,y2))`, `x_current` is the x of
the lower-y endpoint, and `inv_slope = Δx/Δy`. -/
def edgeSpec (p1 p2 : Frac × Frac) : Option (Int × Edge) :=
  if epsHoriz.ble (p1.2.sub p2.2).abs then
    some (qround (min p1.2.toQ p2.2.toQ),
          { y_max := qround (max p1.2.toQ p2.2.toQ),
            x_current := if p1.2.blt p2.2 then p1.1 else p2.1,
            inv_slope := (p2.1.sub p1.1).div (p2.2.sub p1.2) })
  else none

/-- Specification-side insertion, following C5 verbatim: push onto
`entries[y_start − y_min]` when that index is in bounds, silently discard
otherwise. -/
def insertSpec (st : ScanlineTable) (ys : Int) (e : Edge) : ScanlineTable :=
  if 0 ≤ ys - st.y_min ∧ ys - st.y_min < (st.entries.length : Int) then
    ⟨st.y_min, st.entries.modify (fun l => l ++ [e]) (ys - st.y_min).toNat⟩
  else st

/-- Specification-side list of `(start scanline, edge)` pairs of a
projected ring, in segment order including the wrap-around segment. -/
def ringEdgesSpec (coords : List (Frac × Frac)) : List (Int × Edge) :=
  (List.range coords.length).filterMap (fun i =>
    edgeSpec (coords.getD i (Frac.zero, Frac.zero))
      (coords.getD ((i + 1) % coords.length) (Frac.zero, Frac.zero)))

theorem i32clamp_id (i : Int) (h1 : -2147483648 ≤ i) (h2 : i ≤ 2147483647) :
    i32clamp i = i := by
  unfold i32clamp
  rw [min_eq_left h2, max_eq_right h1]

theorem edge_new_eq_spec (p1 p2 : Frac × Frac)
    (h1a : -2147483648 ≤ qround p1.2.toQ) (h1b : qround p1.2.toQ ≤ 2147483647)
    (h2a : -2147483648 ≤ qround p2.2.toQ) (h2b : qround p2.2.toQ ≤ 2147483647) :
    Edge.new p1 p2 = (edgeSpec p1 p2).map Prod.snd := by
  unfold Edge.new edgeSpec
  by_cases hz : (p1.2.sub p2.2).abs.blt epsHoriz = true
  · rw [if_pos hz, if_neg ?hc]
    · rfl
    case hc =>
      intro hc
      exact absurd ((Frac.ble_iff _ _).mp hc) (not_le.mpr ((Frac.blt_iff _ _).mp hz))
  · have hz' : (p1.2.sub p2.2).abs.blt epsHoriz = false := by
      cases h : (p1.2.sub p2.2).abs.blt epsHoriz
      · rfl
      · exact absurd h hz
    have hge : epsHoriz.toQ ≤ (p1.2.sub p2.2).abs.toQ := (Frac.not_blt_iff _ _).mp hz'
    rw [if_neg hz, if_pos ((Frac.ble_iff _ _).mpr hge)]
    have hepos : 0 < epsHoriz.toQ := by
      unfold epsHoriz Frac.toQ
      positivity
    by_cases hlt : p1.2.blt p2.2 = true
    · have hql : p1.2.toQ < p2.2.toQ := (Frac.blt_iff _ _).mp hlt
      simp only [if_pos hlt, Option.map_some]
      congr 1
      · rw [max_eq_right (le_of_lt hql), Frac.round_eq, i32clamp_id _ h2a h2b]
    · have hql : p2.2.toQ ≤ p1.2.toQ := (Frac.not_blt_iff _ _).mp (by
        cases h : p1.2.blt p2.2
        · rfl
        · exact absurd h hlt)
      simp only [if_neg hlt, Option.map_some]
      have hy : i32clamp p1.2.round = qround (max p1.2.toQ p2.2.toQ) := by
        rw [max_eq_left hql, Frac.round_eq, i32clamp_id _ h1a h1b]
      have hs : (p1.1.sub p2.1).div (p1.2.sub p2.2)
          = (p2.1.sub p1.1).div (p2.2.sub p1.2) := by
        rw [Frac.sub_antisymm p1.1 p2.1, Frac.sub_antisymm p1.2 p2.2, Frac.div_neg_neg]
      rw [hy, hs]
      rfl

theorem add_edge_y_min (st : ScanlineTable) (ys : Int) (e : Edge) :
    (st.add_edge ys e).y_min = st.y_min := by
  simp only [ScanlineTable.add_edge]
  split <;> rfl

theorem add_edge_length (st : ScanlineTable) (ys : Int) (e : Edge) :
    (st.add_edge ys e).entries.length = st.entries.length := by
  simp only [ScanlineTable.add_edge]
  split
  · simp [List.length_modify]
  · rfl

theorem insertSpec_y_min (st : ScanlineTable) (ys : Int) (e : Edge) :
    (insertSpec st ys e).y_min = st.y_min := by
  simp only [insertSpec]
  split <;> rfl

theorem insertSpec_length (st : ScanlineTable) (ys : Int) (e : Edge) :
    (insertSpec st ys e).entries.length = st.entries.length := by
  simp only [insertSpec]
  split
  · simp [List.length_modify]
  · rfl

theorem add_edge_eq_insertSpec (st : ScanlineTable) (ys : Int) (e : Edge)
    (hlo : -9223372036854775808 ≤ ys - st.y_min) (hhi : ys - st.y_min < 9223372036854775808)
    (hlen : (st.entries.length : Int) < 9223372036854775808) :
    st.add_edge ys e = insertSpec st ys e := by
  simp only [ScanlineTable.add_edge, insertSpec, usizeOfI32]
  by_cases h : 0 ≤ ys - st.y_min
  · have hidx : ((ys - st.y_min) % 18446744073709551616).toNat = (ys - st.y_min).toNat := by
      omega
    rw [hidx]
    have hcond : ((ys - st.y_min).toNat < st.entries.length)
        ↔ (0 ≤ ys - st.y_min ∧ ys - st.y_min < (st.entries.length : Int)) := by omega
    exact if_congr hcond rfl rfl
  · have hb1 : ¬ (((ys - st.y_min) % 18446744073709551616).toNat < st.entries.length) := by
      omega
    have hb2 : ¬ (0 ≤ ys - st.y_min ∧ ys - st.y_min < (st.entries.length : Int)) :=
      fun hc => h hc.1
    rw [if_neg hb1, if_neg hb2]

theorem ring_start_eq (p1 p2 : Frac × Frac)
    (h1a : -2147483648 ≤ qround p1.2.toQ) (h1b : qround p1.2.toQ ≤ 2147483647)
    (h2a : -2147483648 ≤ qround p2.2.toQ) (h2b : qround p2.2.toQ ≤ 2147483647) :
    i32clamp ((p1.2.fmin p2.2).round) = qround (min p1.2.toQ p2.2.toQ) := by
  unfold Frac.fmin
  by_cases h : p1.2.ble p2.2 = true
  · rw [if_pos h, Frac.round_eq, i32clamp_id _ h1a h1b,
      min_eq_left ((Frac.ble_iff _ _).mp h)]
  · have hle : p2.2.toQ ≤ p1.2.toQ := by
      have := mt (Frac.ble_iff p1.2 p2.2).mpr h
      exact le_of_lt (lt_of_not_le this)
    rw [if_neg h, Frac.round_eq, i32clamp_id _ h2a h2b, min_eq_right hle]

theorem ringEdgeStep_some (coords : List (Frac × Frac)) (acc : ScanlineTable) (i : Nat)
    (e : Edge)
    (hE : Edge.new (coords.getD i (Frac.zero, Frac.zero))
        (coords.getD ((i + 1) % coords.length) (Frac.zero, Frac.zero)) = some e) :
    ringEdgeStep coords acc i
      = acc.add_edge (i32clamp (((coords.getD i (Frac.zero, Frac.zero)).2.fmin
          (coords.getD ((i + 1) % coords.length) (Frac.zero, Frac.zero)).2).round)) e := by
  unfold ringEdgeStep
  simp only [hE]

theorem ringEdgeStep_none (coords : List (Frac × Frac)) (acc : ScanlineTable) (i : Nat)
    (hE : Edge.new (coords.getD i (Frac.zero, Frac.zero))
        (coords.getD ((i + 1) % coords.length) (Frac.zero, Frac.zero)) = none) :
    ringEdgeStep coords acc i = acc := by
  unfold ringEdgeStep
  simp only [hE]

theorem extractFold_eq (coords : List (Frac × Frac))
    (hy : ∀ p ∈ coords, -2147483648 ≤ qround p.2.toQ ∧ qround p.2.toQ ≤ 2147483647)
    (hpos : 0 < coords.length) :
    ∀ (l : List Nat), (∀ i ∈ l, i < coords.length) →
    ∀ (acc : ScanlineTable), -4294967296 ≤ acc.y_min → acc.y_min ≤ 4294967296 →
      (acc.entries.length : Int) < 9223372036854775808 →
      l.foldl (ringEdgeStep coords) acc
        = (l.filterMap (fun i =>
            edgeSpec (coords.getD i (Frac.zero, Frac.zero))
              (coords.getD ((i + 1) % coords.length) (Frac.zero, Frac.zero)))).foldl
            (fun acc pe => insertSpec acc pe.1 pe.2) acc := by
  intro l
  induction l with
  | nil => intro _ acc _ _ _; rfl
  | cons i l ih =>
    intro hl acc ha1 ha2 ha3
    have hi : i < coords.length := hl i (List.mem_cons_self i l)
    have hi2 : (i + 1) % coords.length < coords.length := Nat.mod_lt _ hpos
    set p1 := coords.getD i (Frac.zero, Frac.zero) with hp1
    set p2 := coords.getD ((i + 1) % coords.length) (Frac.zero, Frac.zero) with hp2
    have hm1 : p1 ∈ coords := by
      rw [hp1, List.getD_eq_getElem _ _ hi]
      exact List.getElem_mem hi
    have hm2 : p2 ∈ coords := by
      rw [hp2, List.getD_eq_getElem _ _ hi2]
      exact List.getElem_mem hi2
    obtain ⟨h1a, h1b⟩ := hy _ hm1
    obtain ⟨h2a, h2b⟩ := hy _ hm2
    have hEN := edge_new_eq_spec _ _ h1a h1b h2a h2b
    have htail : ∀ j ∈ l, j < coords.length := fun j hj => hl j (List.mem_cons_of_mem _ hj)
    by_cases hc : epsHoriz.ble ((p1.2).sub p2.2).abs = true
    · have hES : edgeSpec p1 p2 = some (qround (min p1.2.toQ p2.2.toQ),
          { y_max := qround (max p1.2.toQ p2.2.toQ),
            x_current := if p1.2.blt p2.2 then p1.1 else p2.1,
            inv_slope := (p2.1.sub p1.1).div (p2.2.sub p1.2) }) := by
        unfold edgeSpec
        rw [if_pos hc]
      have hEN' : Edge.new p1 p2 = some
          { y_max := qround (max p1.2.toQ p2.2.toQ),
            x_current := if p1.2.blt p2.2 then p1.1 else p2.1,
            inv_slope := (p2.1.sub p1.1).div (p2.2.sub p1.2) } := by
        rw [hEN, hES]
        rfl
      rw [List.foldl_cons, List.filterMap_cons, hES, List.foldl_cons,
        ringEdgeStep_some coords acc i _ hEN']
      have hys : -2147483648 ≤ qround (min p1.2.toQ p2.2.toQ)
          ∧ qround (min p1.2.toQ p2.2.toQ) ≤ 2147483647 := by
        rcases min_choice p1.2.toQ p2.2.toQ with h | h <;> rw [h]
        · exact ⟨h1a, h1b⟩
        · exact ⟨h2a, h2b⟩
      rw [ring_start_eq p1 p2 h1a h1b h2a h2b,
        add_edge_eq_insertSpec acc _ _ (by omega) (by omega) ha3]
      exact ih htail _
        (by rw [insertSpec_y_min]; exact ha1) (by rw [insertSpec_y_min]; exact ha2)
        (by rw [insertSpec_length]; exact ha3)
    · have hES : edgeSpec p1 p2 = none := by
        unfold edgeSpec
        rw [if_neg hc]
      have hEN' : Edge.new p1 p2 = none := by
        rw [hEN, hES]
        rfl
      rw [List.foldl_cons, List.filterMap_cons, hES,
        ringEdgeStep_none coords acc i hEN']
      exact ih htail acc ha1 ha2 ha3

theorem extract_from_ring_eq_spec (st : ScanlineTable) (ring : List (Frac × Frac))
    (bbox : Bbox) (resolution : Frac) (img_height : Nat)
    (h3 : 3 ≤ ring.length)
    (hy : ∀ p ∈ ring.map (fun c => world_to_screen c.1 c.2 bbox resolution img_height),
        -2147483648 ≤ qround p.2.toQ ∧ qround p.2.toQ ≤ 2147483647)
    (hymin1 : -4294967296 ≤ st.y_min) (hymin2 : st.y_min ≤ 4294967296)
    (hlen : (st.entries.length : Int) < 9223372036854775808) :
    st.extract_from_ring ring bbox resolution img_height
      = (ringEdgesSpec (ring.map
          (fun c => world_to_screen c.1 c.2 bbox resolution img_height))).foldl
          (fun acc pe => insertSpec acc pe.1 pe.2) st := by
  have hpos : 0 < (ring.map
      (fun c => world_to_screen c.1 c.2 bbox resolution img_height)).length := by
    rw [List.length_map]
    omega
  unfold ScanlineTable.extract_from_ring ringEdgesSpec
  rw [if_neg (by omega : ¬ ring.length < 3)]
  exact extractFold_eq _ hy hpos _ (fun i hi => List.mem_range.mp hi) st hymin1 hymin2 hlen

/-- C5: for every ring with at least 3 coordinates, edge extraction creates
an `Edge` for exactly the non-horizontal consecutive segments — those with
`|Δy| ≥ 1e-9` in screen space, including the wrap-around closing segment —
with `y_max = round(max(y1, y2))`, `x_current` the x of the lower-y
endpoint, and `inv_slope = Δx/Δy`; each edge is inserted into
`GET.entries[y_start − y_min]` at `y_start = round(min(y1, y2))` when that
index is in bounds and silently discarded otherwise (`insertSpec`), and
horizontal segments (`|Δy| < 1e-9`) never create edges.  The rounded
screen y-coordinates are assumed inside the i32 range (so the `as i32`
saturation is the identity) and the table geometry inside the i64/usize
range, which every real render satisfies. -/
theorem C5_edge_extraction (st : ScanlineTable) (ring : List (Frac × Frac))
    (bbox : Bbox) (resolution : Frac) (img_height : Nat)
    (h3 : 3 ≤ ring.length)
    (hy : ∀ p ∈ ring.map (fun c => world_to_screen c.1 c.2 bbox resolution img_height),
        -2147483648 ≤ qround p.2.toQ ∧ qround p.2.toQ ≤ 2147483647)
    (hymin1 : -4294967296 ≤ st.y_min) (hymin2 : st.y_min ≤ 4294967296)
    (hlen : (st.entries.length : Int) < 9223372036854775808) :
    (∀ p1 p2 : Frac × Frac, (p1.2.sub p2.2).abs.toQ < epsHoriz.toQ →
        Edge.new p1 p2 = none)
    ∧ (∀ p1 p2 : Frac × Frac,
        -2147483648 ≤ qround p1.2.toQ → qround p1.2.toQ ≤ 2147483647 →
        -2147483648 ≤ qround p2.2.toQ → qround p2.2.toQ ≤ 2147483647 →
        Edge.new p1 p2 = (edgeSpec p1 p2).map Prod.snd)
    ∧ st.extract_from_ring ring bbox resolution img_height
        = (ringEdgesSpec (ring.map
            (fun c => world_to_screen c.1 c.2 bbox resolution img_height))).foldl
            (fun acc pe => insertSpec acc pe.1 pe.2) st := by
  refine ⟨?_, ?_, ?_⟩
  · intro p1 p2 h
    have hb : (p1.2.sub p2.2).abs.blt epsHoriz = true := (Frac.blt_iff _ _).mpr h
    simp [Edge.new, hb]
  · intro p1 p2 h1a h1b h2a h2b
    exact edge_new_eq_spec p1 p2 h1a h1b h2a h2b
  · exact extract_from_ring_eq_spec st ring bbox resolution img_height h3 hy
      hymin1 hymin2 hlen

/-- Concrete ring for the C5 witness: the closed square `(2,2)-(8,2)-(8,8)-(2,8)`. -/
def c5ring : List (Frac × Frac) :=
  [(Frac.ofInt 2, Frac.ofInt 2), (Frac.ofInt 8, Frac.ofInt 2),
   (Frac.ofInt 8, Frac.ofInt 8), (Frac.ofInt 2, Frac.ofInt 8),
   (Frac.ofInt 2, Frac.ofInt 2)]

/-- Concrete bbox for the C5 witness. -/
def c5bbox : Bbox := ⟨Frac.ofInt 0, Frac.ofInt 0, Frac.ofInt 10, Frac.ofInt 10⟩

/-- Concrete scanline table for the C5 witness. -/
def c5st : ScanlineTable := ScanlineTable.new 0 10

theorem C5_witness :
    (3 ≤ c5ring.length)
    ∧ ((∀ p1 p2 : Frac × Frac, (p1.2.sub p2.2).abs.toQ < epsHoriz.toQ →
          Edge.new p1 p2 = none)
      ∧ (∀ p1 p2 : Frac × Frac,
          -2147483648 ≤ qround p1.2.toQ → qround p1.2.toQ ≤ 2147483647 →
          -2147483648 ≤ qround p2.2.toQ → qround p2.2.toQ ≤ 2147483647 →
          Edge.new p1 p2 = (edgeSpec p1 p2).map Prod.snd)
      ∧ c5st.extract_from_ring c5ring c5bbox (Frac.ofInt 1) 10
          = (ringEdgesSpec (c5ring.map
              (fun c => world_to_screen c.1 c.2 c5bbox (Frac.ofInt 1) 10))).foldl
              (fun acc pe => insertSpec acc pe.1 pe.2) c5st) :=
  ⟨by decide,
   C5_edge_extraction c5st c5ring c5bbox (Frac.ofInt 1) 10 (by decide)
     (by
       have h : ∀ p ∈ c5ring.map
           (fun c => world_to_screen c.1 c.2 c5bbox (Frac.ofInt 1) 10),
           -2147483648 ≤ p.2.round ∧ p.2.round ≤ 2147483647 := by decide
       intro p hp
       rw [← Frac.round_eq]
       exact h p hp)
     (by decide) (by decide) (by decide)⟩

theorem f32Round_mul_zero (a : Frac) (k : Nat) : f32Round (a.mul ⟨0, k⟩) = ⟨0, 0⟩ := by
  have h : (a.mul ⟨0, k⟩).n = 0 := by simp [Frac.mul]
  unfold f32Round
  rw [if_pos h]

theorem blendChannel_sa0 (dst_a out_a : Frac) (src dst : Nat) :
    blendChannel ⟨0, 0⟩ dst_a out_a src dst
      = blendChannel ⟨0, 0⟩ dst_a out_a 0 dst := by
  unfold blendChannel
  rw [f32Round_mul_zero, f32Round_mul_zero]

set_option maxRecDepth 10000 in
theorem c4_alpha_exact : ∀ a, a < 256 →
    u8cast (f32Round ((outAlpha ⟨0, 0⟩ (alphaF a)).mul (Frac.ofInt 255))) = a := by decide

set_option maxRecDepth 10000 in
theorem c4_da255_exact : ∀ c, c < 256 →
    blendChannel ⟨0, 0⟩ (alphaF 255) (outAlpha ⟨0, 0⟩ (alphaF 255)) 0 c = c := by decide

/-- C4 (counterexample): compositing a source with alpha 0 over the
destination `(255, 0, 0, 1)` does NOT leave the destination bit-identical:
the red channel drops to 254 (`255·(1/255 as f32)·255` rounds below 255 in
`f32`, and the final `as u8` cast truncates). -/
theorem C4_counterexample :
    blend_pixel ⟨123, 45, 67, 0⟩ ⟨255, 0, 0, 1⟩ = ⟨254, 0, 0, 1⟩
    ∧ (⟨254, 0, 0, 1⟩ : Pixel) ≠ ⟨255, 0, 0, 1⟩ := by decide

/-- C4 (amended): compositing a source with alpha 0 preserves the
destination's alpha channel bit-exactly, and preserves the whole pixel
bit-identically when the destination alpha is 0 (early return) or 255
(opaque); for intermediate destination alphas the colour channels can
change (see the counterexample), so the claim as written is false. -/
theorem C4_blend_sa0 (color d : Pixel) (hca : color.a = 0)
    (hr : d.r < 256) (hg : d.g < 256) (hb : d.b < 256) (ha : d.a < 256) :
    (blend_pixel color d).a = d.a
    ∧ ((d.a = 0 ∨ d.a = 255) → blend_pixel color d = d) := by
  obtain ⟨cr, cg, cb, ca⟩ := color
  obtain ⟨r, g, b, a⟩ := d
  simp only at hca hr hg hb ha
  subst hca
  have hsa : alphaF 0 = (⟨0, 0⟩ : Frac) := by decide
  simp only [blend_pixel, hsa]
  simp only [blendChannel_sa0]
  constructor
  · by_cases hz : (outAlpha ⟨0, 0⟩ (alphaF a)).beq Frac.zero = true
    · rw [if_pos hz]
    · rw [if_neg hz]
      exact c4_alpha_exact a ha
  · rintro (h0 | h255)
    · subst h0
      rw [if_pos (by decide : (outAlpha ⟨0, 0⟩ (alphaF 0)).beq Frac.zero = true)]
    · subst h255
      rw [if_neg (by decide : ¬ (outAlpha ⟨0, 0⟩ (alphaF 255)).beq Frac.zero = true)]
      rw [c4_da255_exact r hr, c4_da255_exact g hg, c4_da255_exact b hb,
        c4_alpha_exact 255 (by omega)]

theorem C4_witness :
    ((⟨9, 8, 7, 0⟩ : Pixel).a = 0 ∧ (10 : Nat) < 256 ∧ (255 : Nat) < 256)
    ∧ ((blend_pixel ⟨9, 8, 7, 0⟩ ⟨10, 20, 30, 255⟩).a = (⟨10, 20, 30, 255⟩ : Pixel).a
       ∧ (((⟨10, 20, 30, 255⟩ : Pixel).a = 0 ∨ (⟨10, 20, 30, 255⟩ : Pixel).a = 255) →
          blend_pixel ⟨9, 8, 7, 0⟩ ⟨10, 20, 30, 255⟩ = ⟨10, 20, 30, 255⟩)) :=
  ⟨⟨by decide, by decide, by decide⟩,
   C4_blend_sa0 ⟨9, 8, 7, 0⟩ ⟨10, 20, 30, 255⟩ (by decide) (by decide) (by decide)
     (by decide) (by decide)⟩

/-- Canonical (unsorted) trajectory of the active edge table: the AET
state before processing row `y`, simulating the scanline loop from row 0
with an empty AET.  Every band's actual AET is a permutation of this. -/
def canonAET (get : Nat → List Edge) : Nat → List Edge
  | 0 => []
  | y + 1 =>
    advanceAET ((canonAET get y ++ get y).filter (fun e => ((y : Nat) : Int) < e.y_max))

/-- The image update the scanline loop performs on row `y`, phrased
against the canonical trajectory. -/
def canonRow (get : Nat → List Edge) (fill : Pixel) (w : Nat) (y : Nat)
    (img : Image) : Image :=
  fillRow fill w img y
    ((sortAET ((canonAET get y ++ get y).filter
        (fun e => ((y : Nat) : Int) < e.y_max))).map (fun e => e.x_current))

theorem spanStart_toQ (w : Nat) (x x' : Frac) (h : x.toQ = x'.toQ) :
    spanStart w x = spanStart w x' := by
  unfold spanStart
  rw [Frac.round_eq, Frac.round_eq, h]

theorem spanEnd_toQ (w : Nat) (x x' : Frac) (h : x.toQ = x'.toQ) :
    spanEnd w x = spanEnd w x' := by
  unfold spanEnd
  rw [Frac.round_eq, Frac.round_eq, h]

theorem spansOf_congr (w : Nat) : ∀ (xs xs' : List Frac),
    xs.map Frac.toQ = xs'.map Frac.toQ → spansOf w xs = spansOf w xs'
  | [], [], _ => rfl
  | [], _ :: _, h => by simp at h
  | _ :: _, [], h => by simp at h
  | [_], [_], _ => rfl
  | [_], _ :: _ :: _, h => by simp at h
  | _ :: _ :: _, [_], h => by simp at h
  | x1 :: x2 :: r, x1' :: x2' :: r', h => by
    simp only [List.map_cons, List.cons.injEq] at h
    obtain ⟨h1, h2, hr⟩ := h
    show (spanStart w x1, spanEnd w x2) :: spansOf w r
      = (spanStart w x1', spanEnd w x2') :: spansOf w r'
    rw [spanStart_toQ w x1 x1' h1, spanEnd_toQ w x2 x2' h2, spansOf_congr w r r' hr]

theorem fillRow_congr (fill : Pixel) (w : Nat) (img : Image) (y : Nat)
    (xs xs' : List Frac) (h : xs.map Frac.toQ = xs'.map Frac.toQ) :
    fillRow fill w img y xs = fillRow fill w img y xs' := by
  unfold fillRow
  rw [spansOf_congr w xs xs' h]

theorem sorted_perm_proj_eq (l1 l2 : List Edge) (hp : l1.Perm l2)
    (h1 : l1.Sorted edgeLe) (h2 : l2.Sorted edgeLe) :
    l1.map (fun e => e.x_current.toQ) = l2.map (fun e => e.x_current.toQ) := by
  have hs1 : (l1.map (fun e => e.x_current.toQ)).Sorted (· ≤ ·) :=
    List.Pairwise.map _ (fun a b hab => (Frac.ble_iff _ _).mp hab) h1
  have hs2 : (l2.map (fun e => e.x_current.toQ)).Sorted (· ≤ ·) :=
    List.Pairwise.map _ (fun a b hab => (Frac.ble_iff _ _).mp hab) h2
  exact List.eq_of_perm_of_sorted (hp.map _) hs1 hs2

theorem sortAET_proj_eq (l1 l2 : List Edge) (hp : l1.Perm l2) :
    ((sortAET l1).map (fun e => e.x_current)).map Frac.toQ
      = ((sortAET l2).map (fun e => e.x_current)).map Frac.toQ := by
  rw [List.map_map, List.map_map]
  exact sorted_perm_proj_eq _ _
    (((List.perm_insertionSort edgeLe l1).trans hp).trans
      (List.perm_insertionSort edgeLe l2).symm)
    (List.sorted_insertionSort edgeLe l1) (List.sorted_insertionSort edgeLe l2)

theorem bandAux (get : Nat → List Edge) (fill : Pixel) (w y_start : Nat) (img : Image) :
    ∀ k, (((List.range k).foldl (stepRow get fill w y_start) ([], img)).1).Perm
        (canonAET get k)
      ∧ ((List.range k).foldl (stepRow get fill w y_start) ([], img)).2
        = (List.range k).foldl
            (fun im y => if y_start ≤ y then canonRow get fill w y im else im) img := by
  intro k
  induction k with
  | zero => exact ⟨List.Perm.refl _, rfl⟩
  | succ k ih =>
    obtain ⟨hperm, himg⟩ := ih
    rw [List.range_succ, List.foldl_append, List.foldl_append,
      List.foldl_cons, List.foldl_cons, List.foldl_nil, List.foldl_nil]
    set st := (List.range k).foldl (stepRow get fill w y_start) ([], img) with hst
    have haet : ((st.1 ++ get k).filter (fun e => ((k : Nat) : Int) < e.y_max)).Perm
        ((canonAET get k ++ get k).filter (fun e => ((k : Nat) : Int) < e.y_max)) :=
      (hperm.append_right (get k)).filter _
    by_cases hy : y_start ≤ k
    · constructor
      · simp only [stepRow, if_pos hy, canonAET]
        exact ((List.perm_insertionSort edgeLe _).trans haet).map _
      · simp only [stepRow, if_pos hy, himg]
        exact fillRow_congr _ _ _ _ _ _ (sortAET_proj_eq _ _ haet)
    · constructor
      · simp only [stepRow, if_neg hy, canonAET]
        exact haet.map _
      · simp only [stepRow, if_neg hy, himg]

theorem bandRun_eq (get : Nat → List Edge) (fill : Pixel) (w y_start y_end : Nat)
    (img : Image) :
    bandRun get fill w y_start y_end img
      = (List.range y_end).foldl
          (fun im y => if y_start ≤ y then canonRow get fill w y im else im) img := by
  unfold bandRun
  exact (bandAux get fill w y_start img y_end).2

theorem foldl_guard_skip (get : Nat → List Edge) (fill : Pixel) (w a : Nat) :
    ∀ (l : List Nat), (∀ y ∈ l, y < a) → ∀ img : Image,
      l.foldl (fun im y => if a ≤ y then canonRow get fill w y im else im) img = img := by
  intro l
  induction l with
  | nil => intro _ img; rfl
  | cons y l ih =>
    intro h img
    rw [List.foldl_cons, if_neg (not_le.mpr (h y (List.mem_cons_self y l)))]
    exact ih (fun z hz => h z (List.mem_cons_of_mem _ hz)) img

theorem foldl_guard_take (get : Nat → List Edge) (fill : Pixel) (w a : Nat) :
    ∀ (l : List Nat), (∀ y ∈ l, a ≤ y) → ∀ img : Image,
      l.foldl (fun im y => if a ≤ y then canonRow get fill w y im else im) img
        = l.foldl (fun im y => canonRow get fill w y im) img := by
  intro l
  induction l with
  | nil => intro _ _; rfl
  | cons y l ih =>
    intro h img
    rw [List.foldl_cons, List.foldl_cons, if_pos (h y (List.mem_cons_self y l))]
    exact ih (fun z hz => h z (List.mem_cons_of_mem _ hz)) _

theorem guardedRange_canon (get : Nat → List Edge) (fill : Pixel) (w a n : Nat)
    (han : a ≤ n) (img : Image) :
    (List.range n).foldl
        (fun im y => if a ≤ y then canonRow get fill w y im else im) img
      = (List.range' a (n - a)).foldl (fun im y => canonRow get fill w y im) img := by
  have hsplit : List.range n = List.range' 0 a ++ List.range' a (n - a) := by
    rw [List.range_eq_range']
    have := List.range'_append 0 a (n - a) 1
    simp only [Nat.zero_add, Nat.one_mul] at this
    rw [this, Nat.sub_add_cancel han]
  rw [hsplit, List.foldl_append]
  rw [show List.range' 0 a = List.range a from (List.range_eq_range' a).symm]
  rw [foldl_guard_skip get fill w a _ (fun y hy => List.mem_range.mp hy) img]
  exact foldl_guard_take get fill w a _
    (fun y hy => ((List.mem_range'_1).mp hy).1) img

theorem renderFillAux (get : Nat → List Edge) (fill : Pixel) (w h bh : Nat)
    (hbh : 1 ≤ bh) (img : Image) :
    ∀ b : Nat, (List.range b).foldl (fun im band_idx =>
        let y_start := band_idx * bh
        let y_end := min ((band_idx + 1) * bh) h
        if y_end ≤ y_start then im else bandRun get fill w y_start y_end im) img
      = (List.range' 0 (min (b * bh) h)).foldl
          (fun im y => canonRow get fill w y im) img := by
  intro b
  induction b with
  | zero => simp
  | succ b ih =>
    rw [List.range_succ, List.foldl_append, List.foldl_cons, List.foldl_nil, ih]
    have hmul : (b + 1) * bh = b * bh + bh := Nat.succ_mul b bh
    show (if min ((b + 1) * bh) h ≤ b * bh then _ else
        bandRun get fill w (b * bh) (min ((b + 1) * bh) h) _)
      = _
    by_cases hbe : min ((b + 1) * bh) h ≤ b * bh
    · rw [if_pos hbe]
      have heq : min ((b + 1) * bh) h = min (b * bh) h := by omega
      rw [← heq]
    · rw [if_neg hbe]
      have hA : min (b * bh) h = b * bh := by omega
      rw [bandRun_eq, guardedRange_canon get fill w _ _ (by omega), hA,
        ← List.foldl_append]
      congr 1
      have := List.range'_append 0 (b * bh) (min ((b + 1) * bh) h - b * bh) 1
      simp only [Nat.zero_add, Nat.one_mul] at this
      rw [this, Nat.sub_add_cancel (by omega)]

theorem renderFill_eq_canon (get : Nat → List Edge) (fill : Pixel) (w h nb : Nat)
    (hnb : 1 ≤ nb) (img : Image) :
    renderFill get fill w h nb img
      = (List.range h).foldl (fun im y => canonRow get fill w y im) img := by
  by_cases hh : h = 0
  · subst hh
    simp only [renderFill, List.range_zero, List.foldl_nil]
    have hstep : ∀ (im : Image) (b : Nat),
        (if min ((b + 1) * ((0 + nb - 1) / nb)) 0 ≤ b * ((0 + nb - 1) / nb) then im
         else bandRun get fill w (b * ((0 + nb - 1) / nb))
           (min ((b + 1) * ((0 + nb - 1) / nb)) 0) im) = im := by
      intro im b
      rw [if_pos (by omega)]
    have hfold : ∀ (l : List Nat) (im : Image), l.foldl (fun im b =>
        if min ((b + 1) * ((0 + nb - 1) / nb)) 0 ≤ b * ((0 + nb - 1) / nb) then im
        else bandRun get fill w (b * ((0 + nb - 1) / nb))
          (min ((b + 1) * ((0 + nb - 1) / nb)) 0) im) im = im := by
      intro l
      induction l with
      | nil => intro im; rfl
      | cons b l ih =>
        intro im
        rw [List.foldl_cons, hstep im b]
        exact ih im
    exact hfold _ img
  · have hbh : 1 ≤ (h + nb - 1) / nb := by
      rw [Nat.le_div_iff_mul_le (by omega : 0 < nb)]
      omega
    have hcover : h ≤ nb * ((h + nb - 1) / nb) := by
      have hdm := Nat.div_add_mod (h + nb - 1) nb
      have hmlt : (h + nb - 1) % nb < nb := Nat.mod_lt _ (by omega)
      omega
    simp only [renderFill]
    rw [renderFillAux get fill w h _ hbh img nb]
    have hmin : min (nb * ((h + nb - 1) / nb)) h = h := by omega
    rw [hmin, ← List.range_eq_range']

theorem render_multipolygon_bands (r : Renderer) (mp : MultiPolygonG) (nb1 nb2 : Nat)
    (h1 : 1 ≤ nb1) (h2 : 1 ≤ nb2) (img : Image) :
    render_multipolygon r mp nb1 img = render_multipolygon r mp nb2 img := by
  simp only [render_multipolygon]
  rw [renderFill_eq_canon _ _ _ _ _ h1, renderFill_eq_canon _ _ _ _ _ h2]

/-- C1: the image produced by `render_multipolygon` is independent of the
number of bands: for every renderer, MultiPolygon and initial buffer, the
`num_bands`-band output is bit-identical to the single-band output.  Each
band simulates the scanline loop from row 0 (its AET is a permutation of
the canonical one, and sorting makes the written spans agree), and bands
write disjoint row ranges that concatenate to `0..height`. -/
theorem C1_band_equivalence (r : Renderer) (mp : MultiPolygonG) (num_bands : Nat)
    (h : 1 ≤ num_bands) (img : Image) :
    render_multipolygon r mp num_bands img = render_multipolygon r mp 1 img :=
  render_multipolygon_bands r mp num_bands 1 h (by omega) img

/-- Square exterior ring `(2,2)-(8,2)-(8,8)-(2,8)`, closed. -/
def sqRing : List (Frac × Frac) :=
  [(Frac.ofInt 2, Frac.ofInt 2), (Frac.ofInt 8, Frac.ofInt 2),
   (Frac.ofInt 8, Frac.ofInt 8), (Frac.ofInt 2, Frac.ofInt 8),
   (Frac.ofInt 2, Frac.ofInt 2)]

/-- Interior hole ring `(4,4)-(6,4)-(6,6)-(4,6)`, closed. -/
def holeRing : List (Frac × Frac) :=
  [(Frac.ofInt 4, Frac.ofInt 4), (Frac.ofInt 6, Frac.ofInt 4),
   (Frac.ofInt 6, Frac.ofInt 6), (Frac.ofInt 4, Frac.ofInt 6),
   (Frac.ofInt 4, Frac.ofInt 4)]

/-- The square-with-hole MultiPolygon of C2. -/
def mpHole : MultiPolygonG := [⟨sqRing, [holeRing]⟩]

/-- Render configuration of C2: bbox `(0,0,10,10)`, resolution 1, fill
`(255,0,0,255)`, stroke width 0. -/
def rendCfg : RenderConfig :=
  ⟨⟨Frac.ofInt 0, Frac.ofInt 0, Frac.ofInt 10, Frac.ofInt 10⟩,
   Frac.ofInt 1, ⟨255, 0, 0, 255⟩, (0, 0, 0), 0⟩

/-- The 10×10 renderer of C2. -/
def rend : Renderer := ⟨rendCfg, 10, 10⟩

theorem C1_witness :
    1 ≤ 4
    ∧ render_multipolygon rend mpHole 4 transparentImage
        = render_multipolygon rend mpHole 1 transparentImage :=
  ⟨by decide, C1_band_equivalence rend mpHole 4 (by decide) transparentImage⟩

/-- C2: rendering the square `(2,2)-(8,2)-(8,8)-(2,8)` with the hole
`(4,4)-(6,4)-(6,6)-(4,6)` onto a fresh transparent buffer — bbox
`(0,0,10,10)`, resolution 1, fill `(255,0,0,255)`, stroke width 0 — leaves
the pixel `(5,5)` inside the hole at its pre-render value `(0,0,0,0)` and
fills the pixel `(3,3)` with `(255,0,0,255)`, for every band count ≥ 1. -/
theorem C2_hole_transparent (num_bands : Nat) (h : 1 ≤ num_bands) :
    render_multipolygon rend mpHole num_bands transparentImage 5 5 = ⟨0, 0, 0, 0⟩
    ∧ render_multipolygon rend mpHole num_bands transparentImage 3 3
        = ⟨255, 0, 0, 255⟩ := by
  rw [render_multipolygon_bands rend mpHole num_bands 1 h (by omega)]
  exact ⟨by decide, by decide⟩

theorem C2_witness :
    1 ≤ 3
    ∧ (render_multipolygon rend mpHole 3 transparentImage 5 5 = ⟨0, 0, 0, 0⟩
       ∧ render_multipolygon rend mpHole 3 transparentImage 3 3 = ⟨255, 0, 0, 255⟩) :=
  ⟨by decide, C2_hole_transparent 3 (by decide)⟩

theorem mem_brushOffsets (hw : Int) (hhw : 0 ≤ hw) (v : Int) :
    v ∈ brushOffsets hw ↔ -hw ≤ v ∧ v ≤ hw := by
  unfold brushOffsets
  simp only [List.mem_map, List.mem_range]
  constructor
  · rintro ⟨i, hi, hv⟩
    omega
  · intro hv
    exact ⟨(v + hw).toNat, by omega, by omega⟩

theorem nodup_brushOffsets (hw : Int) : (brushOffsets hw).Nodup := by
  unfold brushOffsets
  refine List.Nodup.map ?_ (List.nodup_range _)
  intro i j hij
  dsimp only at hij
  omega

theorem stampInner (w h : Nat) (color : Pixel) (px y : Int) :
    ∀ (l : List Int), l.Nodup → ∀ (im : Image) (a b : Nat),
      (l.foldl (fun im2 wy => stampPixel w h color im2 px (y + wy)) im) a b
      = if (0 ≤ px ∧ px < (w : Int) ∧ px.toNat = a)
          ∧ (∃ wy ∈ l, 0 ≤ y + wy ∧ y + wy < (h : Int) ∧ (y + wy).toNat = b)
        then blend_pixel color (im a b) else im a b := by
  intro l
  induction l with
  | nil =>
    intro _ im a b
    rw [List.foldl_nil, if_neg]
    rintro ⟨-, wy, hmem, -⟩
    exact absurd hmem (List.not_mem_nil wy)
  | cons wy l ih =>
    intro hnd im a b
    obtain ⟨hhead, htail⟩ := List.nodup_cons.mp hnd
    rw [List.foldl_cons, ih htail]
    by_cases hpx : 0 ≤ px ∧ px < (w : Int) ∧ px.toNat = a
    · by_cases hhit : 0 ≤ y + wy ∧ y + wy < (h : Int) ∧ (y + wy).toNat = b
      · have him : stampPixel w h color im px (y + wy) a b
            = blend_pixel color (im a b) := by
          unfold stampPixel writePx
          rw [if_pos ⟨hpx.1, hpx.2.1, hhit.1, hhit.2.1⟩,
            if_pos ⟨hpx.2.2.symm, hhit.2.2.symm⟩, hpx.2.2, hhit.2.2]
        have hnot : ¬ ∃ wy' ∈ l, 0 ≤ y + wy' ∧ y + wy' < (h : Int)
            ∧ (y + wy').toNat = b := by
          rintro ⟨wy', hmem, h1, h2, h3⟩
          have hw' : wy' = wy := by omega
          exact hhead (hw' ▸ hmem)
        rw [if_neg (fun hc => hnot hc.2), him,
          if_pos ⟨hpx, wy, List.mem_cons_self wy l, hhit⟩]
      · have him : stampPixel w h color im px (y + wy) a b = im a b := by
          unfold stampPixel writePx
          by_cases hin : 0 ≤ px ∧ px < (w : Int) ∧ 0 ≤ y + wy ∧ y + wy < (h : Int)
          · rw [if_pos hin, if_neg]
            rintro ⟨-, hb⟩
            exact hhit ⟨hin.2.2.1, hin.2.2.2, hb.symm⟩
          · rw [if_neg hin]
        rw [him]
        refine if_congr ⟨fun hc => ⟨hc.1, ?_⟩, fun hc => ⟨hc.1, ?_⟩⟩ rfl rfl
        · obtain ⟨wy', hmem, hrest⟩ := hc.2
          exact ⟨wy', List.mem_cons_of_mem _ hmem, hrest⟩
        · obtain ⟨wy', hmem, hrest⟩ := hc.2
          rcases List.mem_cons.mp hmem with rfl | hmem'
          · exact absurd hrest hhit
          · exact ⟨wy', hmem', hrest⟩
    · have him : stampPixel w h color im px (y + wy) a b = im a b := by
        unfold stampPixel writePx
        by_cases hin : 0 ≤ px ∧ px < (w : Int) ∧ 0 ≤ y + wy ∧ y + wy < (h : Int)
        · rw [if_pos hin, if_neg]
          rintro ⟨ha, -⟩
          exact hpx ⟨hin.1, hin.2.1, ha.symm⟩
        · rw [if_neg hin]
      rw [him, if_neg (fun hc => hpx hc.1), if_neg (fun hc => hpx hc.1)]

theorem stampOuter (w h : Nat) (color : Pixel) (hw x y : Int) :
    ∀ (l : List Int), l.Nodup → ∀ (im : Image) (a b : Nat),
      (l.foldl (fun im wx => (brushOffsets hw).foldl
          (fun im2 wy => stampPixel w h color im2 (x + wx) (y + wy)) im) im) a b
      = if (∃ wx ∈ l, 0 ≤ x + wx ∧ x + wx < (w : Int) ∧ (x + wx).toNat = a)
          ∧ (∃ wy ∈ brushOffsets hw, 0 ≤ y + wy ∧ y + wy < (h : Int)
              ∧ (y + wy).toNat = b)
        then blend_pixel color (im a b) else im a b := by
  intro l
  induction l with
  | nil =>
    intro _ im a b
    rw [List.foldl_nil, if_neg]
    rintro ⟨⟨wx, hmem, -⟩, -⟩
    exact absurd hmem (List.not_mem_nil wx)
  | cons wx l ih =>
    intro hnd im a b
    obtain ⟨hhead, htail⟩ := List.nodup_cons.mp hnd
    rw [List.foldl_cons, ih htail]
    have hinner := stampInner w h color (x + wx) y (brushOffsets hw)
      (nodup_brushOffsets hw) im a b
    by_cases hcol : 0 ≤ x + wx ∧ x + wx < (w : Int) ∧ (x + wx).toNat = a
    · by_cases hrow : ∃ wy ∈ brushOffsets hw, 0 ≤ y + wy ∧ y + wy < (h : Int)
          ∧ (y + wy).toNat = b
      · rw [if_pos ⟨hcol, hrow⟩] at hinner
        have hnot : ¬ ∃ wx' ∈ l, 0 ≤ x + wx' ∧ x + wx' < (w : Int)
            ∧ (x + wx').toNat = a := by
          rintro ⟨wx', hmem, h1, h2, h3⟩
          have hx' : wx' = wx := by omega
          exact hhead (hx' ▸ hmem)
        rw [if_neg (fun hc => hnot hc.1), hinner,
          if_pos ⟨⟨wx, List.mem_cons_self wx l, hcol⟩, hrow⟩]
      · rw [if_neg (fun hc => hrow hc.2)] at hinner
        rw [hinner, if_neg (fun hc => hrow hc.2), if_neg (fun hc => hrow hc.2)]
    · rw [if_neg (fun hc => hcol hc.1)] at hinner
      rw [hinner]
      refine if_congr ⟨fun hc => ⟨?_, hc.2⟩, fun hc => ⟨?_, hc.2⟩⟩ rfl rfl
      · obtain ⟨wx', hmem, hrest⟩ := hc.1
        exact ⟨wx', List.mem_cons_of_mem _ hmem, hrest⟩
      · obtain ⟨wx', hmem, hrest⟩ := hc.1
        rcases List.mem_cons.mp hmem with rfl | hmem'
        · exact absurd hrest hcol
        · exact ⟨wx', hmem', hrest⟩

/-- Specification-side brush semantics, following C6 verbatim: every
pixel of the square `[x−h, x+h] × [y−h, y+h]` that lies inside the image
is composited with the colour, every other pixel is untouched. -/
def brushSpec (w h : Nat) (color : Pixel) (hw : Int) (img : Image) (x y : Int) : Image :=
  fun a b =>
    if x - hw ≤ (a : Int) ∧ (a : Int) ≤ x + hw ∧ y - hw ≤ (b : Int) ∧ (b : Int) ≤ y + hw
        ∧ a < w ∧ b < h
    then blend_pixel color (img a b) else img a b

theorem stampBrush_eq_spec (w h : Nat) (color : Pixel) (hw : Int) (hhw : 0 ≤ hw)
    (img : Image) (x y : Int) :
    stampBrush w h color hw img x y = brushSpec w h color hw img x y := by
  funext a b
  unfold stampBrush brushSpec
  rw [stampOuter w h color hw x y (brushOffsets hw) (nodup_brushOffsets hw) img a b]
  refine if_congr ⟨fun hc => ?_, fun hc => ?_⟩ rfl rfl
  · obtain ⟨⟨wx, hmx, hx1, hx2, hx3⟩, wy, hmy, hy1, hy2, hy3⟩ := hc
    rw [mem_brushOffsets hw hhw] at hmx hmy
    refine ⟨by omega, by omega, by omega, by omega, by omega, by omega⟩
  · obtain ⟨h1, h2, h3, h4, h5, h6⟩ := hc
    constructor
    · refine ⟨(a : Int) - x, ?_, by omega, by omega, by omega⟩
      rw [mem_brushOffsets hw hhw]
      omega
    · refine ⟨(b : Int) - y, ?_, by omega, by omega, by omega⟩
      rw [mem_brushOffsets hw hhw]
      omega

/-- Specification-side list of points the Bresenham loop visits, mirroring
`bresAux` with the brush stamp stripped out. -/
def bresPointsAux (x1 y1 dx dy sx sy : Int) : Nat → Int → Int → Int → List (Int × Int)
  | fuel, x, y, err =>
    if x = x1 ∧ y = y1 then [(x, y)]
    else
      match fuel with
      | 0 => [(x, y)]
      | fuel' + 1 =>
        let e2 := 2 * err
        let s1 : Int × Int := if dy ≤ e2 then (err + dy, x + sx) else (err, x)
        let s2 : Int × Int := if e2 ≤ dx then (s1.1 + dx, y + sy) else (s1.1, y)
        (x, y) :: bresPointsAux x1 y1 dx dy sx sy fuel' s1.2 s2.2 s2.1

/-- Specification-side `draw_line`: the Bresenham points between the
truncated integer endpoints. -/
def bresPoints (x0 y0 x1 y1 : Int) : List (Int × Int) :=
  let dx := |x1 - x0|
  let dy := -|y1 - y0|
  let sx : Int := if x0 < x1 then 1 else -1
  let sy : Int := if y0 < y1 then 1 else -1
  bresPointsAux x1 y1 dx dy sx sy (dx - dy).toNat x0 y0 (dx + dy)

theorem bresAux_eq_points (w h : Nat) (color : Pixel) (hw x1 y1 dx dy sx sy : Int) :
    ∀ (fuel : Nat) (x y err : Int) (img : Image),
      bresAux w h color hw x1 y1 dx dy sx sy fuel x y err img
        = (bresPointsAux x1 y1 dx dy sx sy fuel x y err).foldl
            (fun im pt => stampBrush w h color hw im pt.1 pt.2) img := by
  intro fuel
  induction fuel with
  | zero =>
    intro x y err img
    by_cases hc : x = x1 ∧ y = y1 <;>
      simp [bresAux, bresPointsAux, hc]
  | succ fuel ih =>
    intro x y err img
    by_cases hc : x = x1 ∧ y = y1
    · simp [bresAux, bresPointsAux, hc]
    · simp only [bresAux, bresPointsAux, if_neg hc, withIntForced_eq,
        List.foldl_cons]
      exact ih _ _ _ _

/-- The fill pass of `render_multipolygon` alone: GET construction over
all rings and the banded scanline fill, without the stroke pass. -/
def fillPassOnly (r : Renderer) (mp : MultiPolygonG) (num_bands : Nat)
    (img : Image) : Image :=
  let st := mp.foldl
    (fun acc p => acc.extract_from_polygon p r.config.bbox r.config.resolution r.height)
    (ScanlineTable.new 0 r.height)
  renderFill (fun y => st.entries.getD y []) r.config.fill r.width r.height num_bands img

/-- C6: when `stroke_width = 0` the render is exactly the fill pass (no
stroke pixel is touched); when `stroke_width > 0` the stroke pass runs
after the fill pass, drawing every ring with the fully opaque stroke
colour `(R, G, B, 255)`; each segment is rasterized by `draw_line` as
integer Bresenham between the truncated (`as i32`) endpoints, stamping the
square brush at every Bresenham point; and the brush composites the colour
over exactly the pixels of `[x−h, x+h] × [y−h, y+h]` (with
`h = stroke_width / 2` by integer division, so the side is `2·h+1`) that
lie inside the image, leaving every other pixel untouched (`brushSpec`). -/
theorem C6_stroke_brush (r : Renderer) (mp : MultiPolygonG) (num_bands : Nat)
    (img : Image) (w h : Nat) (color : Pixel) (p q : Frac × Frac) (width : Nat)
    (hw x y : Int) (pg : PolygonG) (hhw : 0 ≤ hw) :
    (r.config.stroke_width = 0 →
      render_multipolygon r mp num_bands img = fillPassOnly r mp num_bands img)
    ∧ (0 < r.config.stroke_width →
      render_multipolygon r mp num_bands img
        = mp.foldl (fun im p => render_polygon_stroke r.config r.width r.height im p)
            (fillPassOnly r mp num_bands img))
    ∧ render_polygon_stroke r.config w h img pg
        = pg.interiors.foldl
            (fun im rg => draw_linestring r.config w h im rg
              ⟨r.config.stroke.1, r.config.stroke.2.1, r.config.stroke.2.2, 255⟩
              r.config.stroke_width)
            (draw_linestring r.config w h img pg.exterior
              ⟨r.config.stroke.1, r.config.stroke.2.1, r.config.stroke.2.2, 255⟩
              r.config.stroke_width)
    ∧ draw_line w h img p q color width
        = (bresPoints p.1.toI32 p.2.toI32 q.1.toI32 q.2.toI32).foldl
            (fun im pt => stampBrush w h color ((width / 2 : Nat) : Int) im pt.1 pt.2)
            img
    ∧ stampBrush w h color hw img x y = brushSpec w h color hw img x y := by
  refine ⟨?_, ?_, rfl, ?_, stampBrush_eq_spec w h color hw hhw img x y⟩
  · intro h0
    simp only [render_multipolygon, fillPassOnly, h0]
    rw [if_neg (by omega : ¬ (0 : Nat) < 0)]
  · intro hpos
    simp only [render_multipolygon, fillPassOnly]
    rw [if_pos hpos]
  · unfold draw_line bresPoints
    apply bresAux_eq_points

/-- A 10×10 renderer with stroke width 1 and stroke colour `(0, 200, 0)`. -/
def rendS : Renderer :=
  ⟨⟨⟨Frac.ofInt 0, Frac.ofInt 0, Frac.ofInt 10, Frac.ofInt 10⟩,
    Frac.ofInt 1, ⟨255, 0, 0, 255⟩, (0, 200, 0), 1⟩, 10, 10⟩

theorem C6_witness :
    (0 : Int) ≤ 1
    ∧ ((rendS.config.stroke_width = 0 →
          render_multipolygon rendS mpHole 1 transparentImage
            = fillPassOnly rendS mpHole 1 transparentImage)
      ∧ (0 < rendS.config.stroke_width →
          render_multipolygon rendS mpHole 1 transparentImage
            = mpHole.foldl
                (fun im p => render_polygon_stroke rendS.config rendS.width rendS.height im p)
                (fillPassOnly rendS mpHole 1 transparentImage))
      ∧ render_polygon_stroke rendS.config 10 10 transparentImage ⟨sqRing, [holeRing]⟩
          = (⟨sqRing, [holeRing]⟩ : PolygonG).interiors.foldl
              (fun im rg => draw_linestring rendS.config 10 10 im rg
                ⟨rendS.config.stroke.1, rendS.config.stroke.2.1,
                 rendS.config.stroke.2.2, 255⟩
                rendS.config.stroke_width)
              (draw_linestring rendS.config 10 10 transparentImage
                (⟨sqRing, [holeRing]⟩ : PolygonG).exterior
                ⟨rendS.config.stroke.1, rendS.config.stroke.2.1,
                 rendS.config.stroke.2.2, 255⟩
                rendS.config.stroke_width)
      ∧ draw_line 10 10 transparentImage (Frac.ofInt 1, Frac.ofInt 1)
            (Frac.ofInt 3, Frac.ofInt 2) ⟨0, 200, 0, 255⟩ 3
          = (bresPoints (Frac.ofInt 1).toI32 (Frac.ofInt 1).toI32
              (Frac.ofInt 3).toI32 (Frac.ofInt 2).toI32).foldl
              (fun im pt => stampBrush 10 10 ⟨0, 200, 0, 255⟩ ((3 / 2 : Nat) : Int)
                im pt.1 pt.2) transparentImage
      ∧ stampBrush 10 10 ⟨0, 200, 0, 255⟩ 1 transparentImage 5 4
          = brushSpec 10 10 ⟨0, 200, 0, 255⟩ 1 transparentImage 5 4) :=
  ⟨by decide,
   C6_stroke_brush rendS mpHole 1 transparentImage 10 10 ⟨0, 200, 0, 255⟩
     (Frac.ofInt 1, Frac.ofInt 1) (Frac.ofInt 3, Frac.ofInt 2) 3 1 5 4
     ⟨sqRing, [holeRing]⟩ (by decide)⟩
